import Mathlib

/-!
Shallow embedding of the piece-commitment and sector-alignment core of
`filecoin-proofs/src/pieces.rs` (together with the piece-info type from
`filecoin-proofs/src/types/piece_info.rs`).

Byte amounts (`UnpaddedBytesAmount`, `PaddedBytesAmount`, `SectorSize`,
`UnpaddedByteIndex`) are `u64` newtypes in the source; they are embedded as
`Nat`.  All sizes appearing in the claims are far below `2 ^ 64`, so machine
overflow plays no role in the embedded domain.

The piece hash is a plug-in oracle in the source (`DefaultPieceHasher`, behind
the `Hasher` trait of `storage-proofs/src/hasher/types.rs`); it is embedded as
an arbitrary binary function `H : C → C → C` on an arbitrary commitment type
`C`, with `z : C` standing for the 32-byte all-zero block `[0u8; 32]`.
-/

deriving instance DecidableEq for Except

namespace FilProofs

/-- Modelled from the spec: the constant
`MINIMUM_RESERVED_BYTES_FOR_PIECE_IN_FULLY_ALIGNED_SECTOR` lives in
`filecoin-proofs/src/constants.rs`, which is not part of the corpus.  The spec
fixes it: "Minimum piece size constant: padded 128 bytes (unpadded 127)". -/
def MINIMUM_PIECE_SIZE : Nat := 127

/-- Modelled from the spec: the conversion `UnpaddedBytesAmount →
PaddedBytesAmount` lives in `filecoin-proofs/src/types/mod.rs`, which is not
part of the corpus.  The spec fixes it: "Convertible to PaddedBytesAmount by
the relation `P = U · 128 / 127` (exact; U must be a multiple of 127 for
conversions used by the commitment engine)". -/
def paddedOf (u : Nat) : Nat := u * 128 / 127

/-- Modelled from the spec: the conversion `SectorSize → UnpaddedBytesAmount`
lives in `filecoin-proofs/src/types/mod.rs`, which is not part of the corpus.
A `SectorSize` counts padded bytes (the spec's Scenario A uses
`SectorSize(4·128)` for an unpadded capacity of `4·127`), so the unpadded
capacity is `S · 127 / 128`, the inverse of `P = U · 128 / 127`. -/
def unpaddedOfSector (s : Nat) : Nat := s * 127 / 128

/-- Floor of the base-2 logarithm, by structural recursion on explicit fuel
(fuel `n` always suffices: the argument halves at every step; `log2Fuel_pow`
below pins down its value on powers of two). -/
def log2Fuel : Nat → Nat → Nat
  | 0, _ => 0
  | fuel + 1, n => if 2 ≤ n then log2Fuel fuel (n / 2) + 1 else 0

/-- Rust's `u64::is_power_of_two`, documented as: returns `true` if and only
if `self == 2^k` for some `k` (see `is_power_of_two_iff` below). -/
def is_power_of_two (n : Nat) : Bool := 2 ^ log2Fuel n n == n && n != 0

/-- `PieceInfo` from `filecoin-proofs/src/types/piece_info.rs`: a 32-byte
commitment together with an unpadded size. -/
structure PieceInfo (C : Type) where
  commitment : C
  size : Nat
deriving DecidableEq

/-- The alignment record returned by `get_piece_alignment`
(`pieces.rs`, lines 182-186). -/
structure PieceAlignment where
  left_bytes : Nat
  right_bytes : Nat
deriving DecidableEq

/-- `PieceAlignment::sum` (`pieces.rs`, lines 189-191). -/
def PieceAlignment.sum (a : PieceAlignment) (piece_size : Nat) : Nat :=
  a.left_bytes + piece_size + a.right_bytes

/-- The doubling loop of `get_piece_alignment` (`pieces.rs`, lines 224-231):
`while piece_bytes_needed < piece_bytes { piece_bytes_needed *= 2 }`.
The loop is embedded with explicit fuel to keep the definition structurally
recursive; starting from `127` the loop runs at most `log2 target` times, so
fuel `target` is always enough (see `alignNeededAux_spec`). -/
def alignNeededAux : Nat → Nat → Nat → Nat
  | 0, needed, _ => needed
  | fuel + 1, needed, target =>
    if needed < target then alignNeededAux fuel (needed * 2) target else needed

/-- The value of `piece_bytes_needed` after the doubling loop of
`get_piece_alignment`: the smallest power-of-two multiple of
`MINIMUM_PIECE_SIZE` that is at least `target` (and at least 127). -/
def alignNeeded (target : Nat) : Nat :=
  alignNeededAux target MINIMUM_PIECE_SIZE target

/-- `get_piece_alignment` (`pieces.rs`, lines 220-249). -/
def get_piece_alignment (written_bytes piece_bytes : Nat) : PieceAlignment :=
  let piece_bytes_needed := alignNeeded piece_bytes
  let encroaching := written_bytes % piece_bytes_needed
  let left_bytes := if encroaching > 0 then piece_bytes_needed - encroaching else 0
  let right_bytes := piece_bytes_needed - piece_bytes
  ⟨left_bytes, right_bytes⟩

/-- `sum_piece_bytes_with_alignment` (`pieces.rs`, lines 195-201). -/
def sum_piece_bytes_with_alignment (pieces : List Nat) : Nat :=
  pieces.foldl (fun acc piece_bytes =>
    acc + (get_piece_alignment acc piece_bytes).sum piece_bytes) 0

/-- `get_piece_start_byte` (`pieces.rs`, lines 204-214). -/
def get_piece_start_byte (pieces : List Nat) (piece_bytes : Nat) : Nat :=
  let last_byte := sum_piece_bytes_with_alignment pieces
  let alignment := get_piece_alignment last_byte piece_bytes
  last_byte + alignment.left_bytes

/-- `with_alignment` (`pieces.rs`, lines 252-262): a `Read` source is embedded
as the finite list of bytes it yields; `Cursor::new(vec![0; n])` is
`List.replicate n 0` and `chain` is list append. -/
def with_alignment (source : List Nat) (piece_alignment : PieceAlignment) : List Nat :=
  List.replicate piece_alignment.left_bytes 0 ++ source ++
    List.replicate piece_alignment.right_bytes 0

/-- `get_aligned_source` (`pieces.rs`, lines 268-283). -/
def get_aligned_source (source : List Nat) (pieces : List Nat) (piece_bytes : Nat) :
    Nat × PieceAlignment × List Nat :=
  let written_bytes := sum_piece_bytes_with_alignment pieces
  let piece_alignment := get_piece_alignment written_bytes piece_bytes
  let expected_num_bytes_written :=
    piece_alignment.left_bytes + piece_bytes + piece_alignment.right_bytes
  (expected_num_bytes_written, piece_alignment, with_alignment source piece_alignment)

/-- The error kinds of the commitment engine, following the spec's §7 table.
The first four are the `ensure!` validation errors of `compute_comm_d`
(`pieces.rs`, lines 30-65); `assertFail` stands for a fatal `assert_eq!`
(`pieces.rs`, lines 78 and 160) or `expect` (`pieces.rs`, line 111) panic;
`fuelOut` stands for a non-terminating loop (the source's `while` loops are
embedded with explicit fuel). -/
inductive CommDErr where
  | missingPieces
  | tooManyPieces
  | pieceOverflow
  | nonPow2Piece
  | assertFail
  | fuelOut
deriving DecidableEq

variable {C : Type}

/-- `join_piece_infos` (`pieces.rs`, lines 166-173): hash the two commitments
and add the sizes.  The source's `assert_eq!(left.size, right.size)` holds at
its single call site (`reduce1` merges only equal-sized tops), so the
assertion is not modelled here. -/
def join_piece_infos (H : C → C → C) (left right : PieceInfo C) : PieceInfo C :=
  { commitment := H left.commitment right.commitment, size := left.size + right.size }

/-- The doubling loop of `zero_padding` (`pieces.rs`, lines 154-158):
`while hashed_size < padded_size { commitment = H(commitment, commitment);
hashed_size *= 2 }`, embedded with explicit fuel.  Starting from
`hashed_size = 64`, fuel `padded` always suffices (`64 * 2 ^ padded ≥
padded`), so the fueled function computes exactly the source loop. -/
def doubleUntilAux (H : C → C → C) : Nat → C → Nat → Nat → C × Nat
  | 0, commitment, hashed_size, _ => (commitment, hashed_size)
  | fuel + 1, commitment, hashed_size, padded =>
    if hashed_size < padded then
      doubleUntilAux H fuel (H commitment commitment) (hashed_size * 2) padded
    else (commitment, hashed_size)

/-- `zero_padding` (`pieces.rs`, lines 145-163).  `z` is the all-zero 32-byte
block the commitment starts from; the final `assert_eq!(hashed_size,
u64::from(padded_size))` is modelled by returning `none` when it fails. -/
def zero_padding (H : C → C → C) (z : C) (size : Nat) : Option (PieceInfo C) :=
  let padded_size := paddedOf size
  let pair := doubleUntilAux H padded_size (H z z) 64 padded_size
  if pair.2 = padded_size then some ⟨pair.1, size⟩ else none

/-- The `reduce` loop of the reduction stack (`pieces.rs`, lines 114-137):
`while reduce1() {}`.  The stack is embedded as a list whose head is the top;
`reduce1` pops `right` (the top) then `left` and pushes `join(left, right)`.
Each successful `reduce1` shortens the stack by one, so fuel `s.length` makes
the fueled loop exact. -/
def reduceAux (H : C → C → C) : Nat → List (PieceInfo C) → List (PieceInfo C)
  | 0, s => s
  | _ + 1, [] => []
  | _ + 1, [a] => [a]
  | fuel + 1, a :: b :: t =>
    if a.size = b.size then reduceAux H fuel (join_piece_infos H b a :: t)
    else a :: b :: t

/-- `Stack::reduce` (`pieces.rs`, lines 130-132). -/
def reduce (H : C → C → C) (s : List (PieceInfo C)) : List (PieceInfo C) :=
  reduceAux H s.length s

/-- `Stack::shift_reduce` (`pieces.rs`, lines 134-137). -/
def shift_reduce (H : C → C → C) (piece : PieceInfo C) (s : List (PieceInfo C)) :
    List (PieceInfo C) :=
  reduce H (piece :: s)

/-- Size of the top of the stack (`Stack::peek`, `pieces.rs`, lines 100-102);
`0` for the empty stack, on which the source's `peek` would panic. -/
def headSize : List (PieceInfo C) → Nat
  | [] => 0
  | top :: _ => top.size

/-- Size of the bottom element of the stack; `0` for the empty stack. -/
def bottomSize (s : List (PieceInfo C)) : Nat :=
  match s.getLast? with
  | some p => p.size
  | none => 0

/-- Sum of the sizes of the stack entries. -/
def sumSizes (s : List (PieceInfo C)) : Nat := (s.map PieceInfo.size).sum

/-- The inner `while` loop of `compute_comm_d` (`pieces.rs`, lines 67-69):
`while stack.peek().size < piece_info.size {
  stack.shift_reduce(zero_padding(stack.peek().size)) }`,
embedded with explicit fuel (`fuelOut` models divergence; the top at least
doubles on every iteration, so fuel `psize` suffices whenever the loop
terminates, which is proved below for valid stacks).  An empty stack would
make the source's `peek` panic; it is modelled as `assertFail`. -/
def growTop (H : C → C → C) (z : C) : Nat → Nat → List (PieceInfo C) →
    Except CommDErr (List (PieceInfo C))
  | _, _, [] => .error .assertFail
  | 0, psize, top :: rest =>
    if top.size < psize then .error .fuelOut else .ok (top :: rest)
  | fuel + 1, psize, top :: rest =>
    if top.size < psize then
      match zero_padding H z top.size with
      | none => .error .assertFail
      | some zp => growTop H z fuel psize (shift_reduce H zp (top :: rest))
    else .ok (top :: rest)

/-- The `for` loop of `compute_comm_d` (`pieces.rs`, lines 60-72): for each
remaining piece, first `ensure!` its padded size is a power of two, then grow
the top of the stack to at least the piece's size, then `shift_reduce` the
piece. -/
def processPieces (H : C → C → C) (z : C) :
    List (PieceInfo C) → List (PieceInfo C) → Except CommDErr (List (PieceInfo C))
  | [], s => .ok s
  | piece_info :: rest, s =>
    if is_power_of_two (paddedOf piece_info.size) then
      match growTop H z piece_info.size piece_info.size s with
      | .error e => .error e
      | .ok s1 => processPieces H z rest (shift_reduce H piece_info s1)
    else .error .nonPow2Piece

/-- The final `while` loop of `compute_comm_d` (`pieces.rs`, lines 74-82):
`while stack.len() > 1 { stack.shift_reduce(zero_padding(stack.peek().size)) }`
followed by `assert_eq!(stack.len(), 1)` and `stack.pop().commitment`,
embedded with explicit fuel (`fuelOut` models divergence, which the source
really exhibits on some invalid stacks). -/
def finishStack (H : C → C → C) (z : C) : Nat → List (PieceInfo C) → Except CommDErr C
  | _, [] => .error .assertFail
  | _, [p] => .ok p.commitment
  | 0, _ :: _ :: _ => .error .fuelOut
  | fuel + 1, top :: next :: rest =>
    match zero_padding H z top.size with
    | none => .error .assertFail
    | some zp => finishStack H z fuel (shift_reduce H zp (top :: next :: rest))

/-- Fuel for the final loop: `2 * bottomSize + 1` iterations always suffice
for stacks satisfying the strictly-decreasing-size invariant (proved below),
since every iteration adds at least one byte to the stack's total size, which
stays below twice the bottom entry's size. -/
def finishFuel (s : List (PieceInfo C)) : Nat := 2 * bottomSize s + 1

/-- Sum of the padded sizes of a piece list (`pieces.rs`, lines 40-43). -/
def sumPaddedSizes (piece_infos : List (PieceInfo C)) : Nat :=
  (piece_infos.map (fun info => paddedOf info.size)).sum

/-- `compute_comm_d` (`pieces.rs`, lines 28-83).  The `ensure!` validations
are performed in source order: nonempty, piece count, total padded size, and
the per-piece power-of-two checks interleaved with stack processing. -/
def compute_comm_d (H : C → C → C) (z : C) (sector_size : Nat)
    (piece_infos : List (PieceInfo C)) : Except CommDErr C :=
  match piece_infos with
  | [] => .error .missingPieces
  | first :: rest =>
    if (first :: rest).length ≤ unpaddedOfSector sector_size / MINIMUM_PIECE_SIZE then
      if sumPaddedSizes (first :: rest) ≤ sector_size then
        if is_power_of_two (paddedOf first.size) then
          match processPieces H z rest [first] with
          | .error e => .error e
          | .ok s => finishStack H z (finishFuel s) s
        else .error .nonPow2Piece
      else .error .pieceOverflow
    else .error .tooManyPieces

/-- `verify_pieces` (`pieces.rs`, lines 18-26): recompute `comm_d` and compare
byte-for-byte, propagating `compute_comm_d` errors. -/
def verify_pieces [DecidableEq C] (H : C → C → C) (z : C) (comm_d : C)
    (piece_infos : List (PieceInfo C)) (sector_size : Nat) : Except CommDErr Bool :=
  match compute_comm_d H z sector_size piece_infos with
  | .error e => .error e
  | .ok comm_d_calculated => .ok (decide (comm_d_calculated = comm_d))

/-- The strictly-decreasing-size invariant of the reduction stack, spec §4.5:
"Strictly decreasing sizes top-to-bottom".  The list head is the top of the
stack, so sizes strictly increase along the list. -/
def StackSorted : List (PieceInfo C) → Prop
  | a :: b :: t => a.size < b.size ∧ StackSorted (b :: t)
  | _ => True

/-- A size is a valid piece size when it is a power-of-two multiple of 127
(spec §3, PieceInfo invariants). -/
def ValidPieceSize (u : Nat) : Prop := ∃ k, u = 127 * 2 ^ k

/-- All stack entries have valid (power-of-two multiple of 127) sizes. -/
def StackValid (s : List (PieceInfo C)) : Prop := ∀ p ∈ s, ValidPieceSize p.size

/-- Instrumented variant of `growTop` that also returns the list of stacks
observed after each `shift_reduce` performed by the loop. -/
def growTopT (H : C → C → C) (z : C) : Nat → Nat → List (PieceInfo C) →
    Except CommDErr (List (List (PieceInfo C)) × List (PieceInfo C))
  | _, _, [] => .error .assertFail
  | 0, psize, top :: rest =>
    if top.size < psize then .error .fuelOut else .ok ([], top :: rest)
  | fuel + 1, psize, top :: rest =>
    if top.size < psize then
      match zero_padding H z top.size with
      | none => .error .assertFail
      | some zp =>
        match growTopT H z fuel psize (shift_reduce H zp (top :: rest)) with
        | .error e => .error e
        | .ok (tr, s1) => .ok (shift_reduce H zp (top :: rest) :: tr, s1)
    else .ok ([], top :: rest)

/-- Instrumented variant of `processPieces` that also returns the list of
stacks observed after each `shift_reduce`. -/
def processPiecesT (H : C → C → C) (z : C) :
    List (PieceInfo C) → List (PieceInfo C) →
    Except CommDErr (List (List (PieceInfo C)) × List (PieceInfo C))
  | [], s => .ok ([], s)
  | piece_info :: rest, s =>
    if is_power_of_two (paddedOf piece_info.size) then
      match growTopT H z piece_info.size piece_info.size s with
      | .error e => .error e
      | .ok (tr1, s1) =>
        match processPiecesT H z rest (shift_reduce H piece_info s1) with
        | .error e => .error e
        | .ok (tr2, s2) => .ok (tr1 ++ shift_reduce H piece_info s1 :: tr2, s2)
    else .error .nonPow2Piece

/-- Instrumented variant of `finishStack` that also returns the list of
stacks observed after each `shift_reduce` performed by the final loop. -/
def finishStackT (H : C → C → C) (z : C) : Nat → List (PieceInfo C) →
    Except CommDErr (List (List (PieceInfo C)) × C)
  | _, [] => .error .assertFail
  | _, [p] => .ok ([], p.commitment)
  | 0, _ :: _ :: _ => .error .fuelOut
  | fuel + 1, top :: next :: rest =>
    match zero_padding H z top.size with
    | none => .error .assertFail
    | some zp =>
      match finishStackT H z fuel (shift_reduce H zp (top :: next :: rest)) with
      | .error e => .error e
      | .ok (tr, c) => .ok (shift_reduce H zp (top :: next :: rest) :: tr, c)

/-- Instrumented variant of `compute_comm_d`: on success it returns, besides
`comm_d`, every stack at rest between stack operations — the singleton stack
after the initial `shift` of the first piece, and the stack after every
`shift_reduce` (of a real piece or of a synthesized zero piece). -/
def computeCommDT (H : C → C → C) (z : C) (sector_size : Nat)
    (piece_infos : List (PieceInfo C)) :
    Except CommDErr (List (List (PieceInfo C)) × C) :=
  match piece_infos with
  | [] => .error .missingPieces
  | first :: rest =>
    if (first :: rest).length ≤ unpaddedOfSector sector_size / MINIMUM_PIECE_SIZE then
      if sumPaddedSizes (first :: rest) ≤ sector_size then
        if is_power_of_two (paddedOf first.size) then
          match processPiecesT H z rest [first] with
          | .error e => .error e
          | .ok (tr, s) =>
            match finishStackT H z (finishFuel s) s with
            | .error e => .error e
            | .ok (tr2, c) => .ok ([first] :: (tr ++ tr2), c)
        else .error .nonPow2Piece
      else .error .pieceOverflow
    else .error .tooManyPieces

/-! ### Arithmetic facts about the embedded helpers -/

theorem log2Fuel_pow {k fuel : Nat} (h : k ≤ fuel) : log2Fuel fuel (2 ^ k) = k := by
  induction k generalizing fuel with
  | zero => cases fuel <;> simp [log2Fuel]
  | succ k ih =>
    cases fuel with
    | zero => omega
    | succ f =>
      have h2 : 2 ≤ 2 ^ (k + 1) := by
        calc 2 = 2 ^ 1 := by norm_num
        _ ≤ 2 ^ (k + 1) := Nat.pow_le_pow_right (by norm_num) (by omega)
      have hdiv : 2 ^ (k + 1) / 2 = 2 ^ k := by
        rw [pow_succ]
        exact Nat.mul_div_cancel _ (by norm_num)
      simp only [log2Fuel, if_pos h2, hdiv]
      rw [ih (by omega)]

theorem is_power_of_two_iff {n : Nat} : is_power_of_two n = true ↔ ∃ k, n = 2 ^ k := by
  constructor
  · intro h
    simp only [is_power_of_two, Bool.and_eq_true, beq_iff_eq, bne_iff_ne, ne_eq] at h
    exact ⟨log2Fuel n n, h.1.symm⟩
  · rintro ⟨k, rfl⟩
    simp only [is_power_of_two, Bool.and_eq_true, beq_iff_eq, bne_iff_ne, ne_eq]
    refine ⟨?_, by positivity⟩
    rw [log2Fuel_pow (le_of_lt (Nat.lt_two_pow k))]

theorem alignNeededAux_spec : ∀ fuel i target : Nat,
    target ≤ 127 * 2 ^ i * 2 ^ fuel →
    ∃ k, i ≤ k ∧ alignNeededAux fuel (127 * 2 ^ i) target = 127 * 2 ^ k ∧
      target ≤ 127 * 2 ^ k ∧ ∀ j, i ≤ j → target ≤ 127 * 2 ^ j → k ≤ j := by
  intro fuel
  induction fuel with
  | zero =>
    intro i target h
    rw [pow_zero, mul_one] at h
    exact ⟨i, le_refl _, rfl, h, fun j hj _ => hj⟩
  | succ fuel ih =>
    intro i target h
    by_cases hlt : 127 * 2 ^ i < target
    · have h2 : target ≤ 127 * 2 ^ (i + 1) * 2 ^ fuel := by
        calc target ≤ 127 * 2 ^ i * 2 ^ (fuel + 1) := h
        _ = 127 * 2 ^ (i + 1) * 2 ^ fuel := by ring
      obtain ⟨k, hik, heq, hle, hmin⟩ := ih (i + 1) target h2
      refine ⟨k, by omega, ?_, hle, ?_⟩
      · have hstep : alignNeededAux (fuel + 1) (127 * 2 ^ i) target =
            alignNeededAux fuel (127 * 2 ^ (i + 1)) target := by
          simp only [alignNeededAux, if_pos hlt]
          congr 1
          ring
        rw [hstep, heq]
      · intro j hij htj
        have hij1 : i + 1 ≤ j := by
          rcases Nat.eq_or_lt_of_le hij with hji | hji
          · subst hji; omega
          · omega
        exact hmin j hij1 htj
    · push_neg at hlt
      refine ⟨i, le_refl _, ?_, hlt, fun j hj _ => hj⟩
      simp only [alignNeededAux, if_neg (Nat.not_lt.2 hlt)]

theorem alignNeeded_spec (target : Nat) :
    ∃ k, alignNeeded target = 127 * 2 ^ k ∧ target ≤ 127 * 2 ^ k ∧
      ∀ j, target ≤ 127 * 2 ^ j → k ≤ j := by
  have h : target ≤ 127 * 2 ^ 0 * 2 ^ target := by
    have h1 := Nat.lt_two_pow target
    have h2 : 2 ^ target ≤ 127 * 2 ^ target := Nat.le_mul_of_pos_left _ (by norm_num)
    simpa using le_trans (le_of_lt h1) h2
  obtain ⟨k, _, heq, hle, hmin⟩ := alignNeededAux_spec target 0 target h
  refine ⟨k, ?_, hle, fun j hj => hmin j (Nat.zero_le _) hj⟩
  simpa [alignNeeded, MINIMUM_PIECE_SIZE] using heq

theorem le_alignNeeded (target : Nat) : target ≤ alignNeeded target := by
  obtain ⟨k, heq, hle, _⟩ := alignNeeded_spec target
  omega

theorem min_le_alignNeeded (target : Nat) : 127 ≤ alignNeeded target := by
  obtain ⟨k, heq, _, _⟩ := alignNeeded_spec target
  have : (127 : Nat) * 2 ^ 0 ≤ 127 * 2 ^ k :=
    Nat.mul_le_mul_left _ (Nat.pow_le_pow_right (by norm_num) (Nat.zero_le _))
  omega

theorem alignNeeded_pos (target : Nat) : 0 < alignNeeded target := by
  have := min_le_alignNeeded target
  omega

theorem alignNeeded_dvd_add_left (written piece_bytes : Nat) :
    alignNeeded piece_bytes ∣
      written + (get_piece_alignment written piece_bytes).left_bytes := by
  have hpos : 0 < alignNeeded piece_bytes := alignNeeded_pos piece_bytes
  simp only [get_piece_alignment]
  by_cases h0 : written % alignNeeded piece_bytes = 0
  · simp only [h0, gt_iff_lt, Nat.lt_irrefl, if_false]
    simpa using Nat.dvd_of_mod_eq_zero h0
  · have hlt : written % alignNeeded piece_bytes < alignNeeded piece_bytes :=
      Nat.mod_lt _ hpos
    have hdm := Nat.div_add_mod written (alignNeeded piece_bytes)
    refine ⟨written / alignNeeded piece_bytes + 1, ?_⟩
    rw [Nat.mul_succ]
    simp only [gt_iff_lt, if_pos (Nat.pos_of_ne_zero h0)]
    omega

theorem right_align_eq (written piece_bytes : Nat) :
    piece_bytes + (get_piece_alignment written piece_bytes).right_bytes =
      alignNeeded piece_bytes := by
  have := le_alignNeeded piece_bytes
  simp only [get_piece_alignment]
  omega

theorem align_sum_eq (written piece_bytes : Nat) :
    written + (get_piece_alignment written piece_bytes).sum piece_bytes =
      written + (get_piece_alignment written piece_bytes).left_bytes +
        alignNeeded piece_bytes := by
  have hr := right_align_eq written piece_bytes
  simp only [PieceAlignment.sum]
  omega

theorem dvd_127_alignNeeded (piece_bytes : Nat) : 127 ∣ alignNeeded piece_bytes := by
  obtain ⟨k, heq, -, -⟩ := alignNeeded_spec piece_bytes
  exact ⟨2 ^ k, heq⟩

theorem sum_piece_bytes_foldl_dvd (pieces : List Nat) :
    ∀ acc : Nat, 127 ∣ acc →
      127 ∣ pieces.foldl
        (fun acc piece_bytes =>
          acc + (get_piece_alignment acc piece_bytes).sum piece_bytes) acc := by
  induction pieces with
  | nil => intro acc h; simpa using h
  | cons piece_bytes rest ih =>
    intro acc h
    simp only [List.foldl_cons]
    apply ih
    rw [align_sum_eq]
    have h1 : 127 ∣ acc + (get_piece_alignment acc piece_bytes).left_bytes :=
      dvd_trans (dvd_127_alignNeeded piece_bytes) (alignNeeded_dvd_add_left acc piece_bytes)
    exact Nat.dvd_add h1 (dvd_127_alignNeeded piece_bytes)

theorem dvd_127_sum_piece_bytes (pieces : List Nat) :
    127 ∣ sum_piece_bytes_with_alignment pieces :=
  sum_piece_bytes_foldl_dvd pieces 0 (dvd_zero 127)

/-- C5 (amended).  For every `(written, incoming)`, the `piece_bytes_needed`
computed by `get_piece_alignment` is the smallest power-of-two multiple of 127
that is at least `incoming` (and at least 127), the returned `left` makes
`(written + left) mod P == 0`, and `incoming + right == P` (the claim's
`left + incoming + right == P` only holds when `left = 0`); the six concrete
table rows hold as claimed. -/
theorem get_piece_alignment_spec (written incoming : Nat) :
    (∃ k, alignNeeded incoming = 127 * 2 ^ k) ∧
    incoming ≤ alignNeeded incoming ∧ 127 ≤ alignNeeded incoming ∧
    (∀ j, incoming ≤ 127 * 2 ^ j → alignNeeded incoming ≤ 127 * 2 ^ j) ∧
    (written + (get_piece_alignment written incoming).left_bytes) %
        alignNeeded incoming = 0 ∧
    incoming + (get_piece_alignment written incoming).right_bytes =
      alignNeeded incoming ∧
    get_piece_alignment 0 0 = ⟨0, 127⟩ ∧
    get_piece_alignment 0 127 = ⟨0, 0⟩ ∧
    get_piece_alignment 127 254 = ⟨127, 0⟩ ∧
    get_piece_alignment 127 508 = ⟨381, 0⟩ ∧
    get_piece_alignment 100 100 = ⟨27, 27⟩ ∧
    get_piece_alignment 300 300 = ⟨208, 208⟩ := by
  obtain ⟨k, heq, hle, hmin⟩ := alignNeeded_spec incoming
  refine ⟨⟨k, heq⟩, le_alignNeeded incoming, min_le_alignNeeded incoming, ?_, ?_,
    right_align_eq written incoming, by decide, by decide, by decide, by decide,
    by decide, by decide⟩
  · intro j hj
    have hkj : k ≤ j := hmin j hj
    have : (127 : Nat) * 2 ^ k ≤ 127 * 2 ^ j :=
      Nat.mul_le_mul_left _ (Nat.pow_le_pow_right (by norm_num) hkj)
    omega
  · obtain ⟨c, hc⟩ := alignNeeded_dvd_add_left written incoming
    rw [hc, Nat.mul_mod_right]

theorem get_piece_alignment_spec_witness :
    alignNeeded 254 ≤ 127 * 2 ^ 1 :=
  (get_piece_alignment_spec 127 254).2.2.2.1 1 (by norm_num)

/-- C5 (counterexample).  At `(written, incoming) = (127, 254)` the claim's
slot size is `P = 254` (`254 = 127·2^1` and the only smaller candidate
`127·2^0 = 127` is below `incoming`), the code returns `(left, right) =
(127, 0)` as the claim's own table demands, yet `left + incoming + right =
381 ≠ P`, refuting the claimed equation `left + incoming + right == P`. -/
theorem get_piece_alignment_sum_cex :
    alignNeeded 254 = 254 ∧ 254 = 127 * 2 ^ 1 ∧ 127 * 2 ^ 0 < 254 ∧
    get_piece_alignment 127 254 = ⟨127, 0⟩ ∧
    (get_piece_alignment 127 254).left_bytes + 254 +
        (get_piece_alignment 127 254).right_bytes = 381 ∧
    381 ≠ 254 := by
  refine ⟨by decide, by decide, by decide, by decide, by decide, by decide⟩

/-- C8 (confirmed).  `get_piece_start_byte` is the aligned sum of the prior
pieces plus the left alignment of the incoming piece at that offset, and on
the piece sizes `[31, 32, 33]` it returns the offsets `0`, `127`, `254`. -/
theorem get_piece_start_byte_spec (pieces : List Nat) (piece_bytes : Nat) :
    get_piece_start_byte pieces piece_bytes =
      sum_piece_bytes_with_alignment pieces +
        (get_piece_alignment (sum_piece_bytes_with_alignment pieces)
          piece_bytes).left_bytes ∧
    get_piece_start_byte [] 31 = 0 ∧
    get_piece_start_byte [31] 32 = 127 ∧
    get_piece_start_byte [31, 32] 33 = 254 :=
  ⟨rfl, by decide, by decide, by decide⟩

/-- C10 (confirmed).  For arbitrary piece sizes (valid or not), the aligned
running sum is a multiple of 127, and the start byte of the incoming piece is
a multiple of its alignment unit `P` (the smallest power-of-two multiple of
127 containing it), hence also a multiple of 127. -/
theorem start_byte_aligned (pieces : List Nat) (piece_bytes : Nat) :
    127 ∣ sum_piece_bytes_with_alignment pieces ∧
    alignNeeded piece_bytes ∣ get_piece_start_byte pieces piece_bytes ∧
    (∃ k, alignNeeded piece_bytes = 127 * 2 ^ k) ∧
    127 ∣ get_piece_start_byte pieces piece_bytes := by
  obtain ⟨k, heq, -, -⟩ := alignNeeded_spec piece_bytes
  have hP : alignNeeded piece_bytes ∣ get_piece_start_byte pieces piece_bytes :=
    alignNeeded_dvd_add_left (sum_piece_bytes_with_alignment pieces) piece_bytes
  exact ⟨dvd_127_sum_piece_bytes pieces, hP, ⟨k, heq⟩,
    dvd_trans (dvd_127_alignNeeded piece_bytes) hP⟩

/-- C9 (counterexample).  A source yielding only 50 of the expected 100 bytes:
the wrapped source of `get_aligned_source` yields all 77 bytes
(source then right padding) without any error — reading straight across the
boundary between the source's bytes and the right zero-padding — while the
expected total is 127.  No `UnderflowSource` error exists anywhere in the
code: `with_alignment` is a plain `chain`. -/
theorem get_aligned_source_short_cex :
    get_aligned_source (List.replicate 50 1) [] 100 =
      (127, ⟨0, 27⟩, List.replicate 50 1 ++ List.replicate 27 0) ∧
    (List.replicate 50 1 ++ List.replicate 27 (0 : Nat)).length = 77 ∧
    (77 : Nat) ≠ 127 := by
  refine ⟨by decide, by decide, by decide⟩

/-- C9 (amended).  The wrapper never reports an error: it yields exactly the
left zero padding, then whatever the source yields, then the right zero
padding; if the source yields fewer than `piece_bytes` bytes the wrapped
source simply yields fewer than the expected number of bytes. -/
theorem get_aligned_source_spec (source pieces : List Nat) (piece_bytes : Nat) :
    (get_aligned_source source pieces piece_bytes).2.2 =
      List.replicate (get_aligned_source source pieces piece_bytes).2.1.left_bytes 0 ++
        source ++
        List.replicate (get_aligned_source source pieces piece_bytes).2.1.right_bytes 0 ∧
    (get_aligned_source source pieces piece_bytes).2.2.length =
      (get_aligned_source source pieces piece_bytes).2.1.left_bytes + source.length +
        (get_aligned_source source pieces piece_bytes).2.1.right_bytes ∧
    (source.length < piece_bytes →
      (get_aligned_source source pieces piece_bytes).2.2.length <
        (get_aligned_source source pieces piece_bytes).1) := by
  refine ⟨rfl, ?_, ?_⟩
  · simp [get_aligned_source, with_alignment]
    omega
  · intro hshort
    simp [get_aligned_source, with_alignment]
    omega

theorem get_aligned_source_spec_witness :
    (List.replicate 50 1).length < 100 ∧
    (get_aligned_source (List.replicate 50 1) [] 100).2.2.length <
      (get_aligned_source (List.replicate 50 1) [] 100).1 :=
  ⟨by decide, (get_aligned_source_spec (List.replicate 50 1) [] 100).2.2 (by decide)⟩

/-! ### Commitment-engine theorems -/

theorem growTop_exit (H : C → C → C) (z : C) (fuel psize : Nat) (top : PieceInfo C)
    (rest : List (PieceInfo C)) (h : ¬ top.size < psize) :
    growTop H z fuel psize (top :: rest) = .ok (top :: rest) := by
  cases fuel with
  | zero => rw [growTop, if_neg h]
  | succ fuel => rw [growTop, if_neg h]

theorem growTop_iter (H : C → C → C) (z : C) (fuel psize : Nat) (top : PieceInfo C)
    (rest : List (PieceInfo C)) (zp : PieceInfo C) (h : top.size < psize)
    (hz : zero_padding H z top.size = some zp) :
    growTop H z (fuel + 1) psize (top :: rest) =
      growTop H z fuel psize (shift_reduce H zp (top :: rest)) := by
  rw [growTop, if_pos h, hz]

theorem finishStack_single (H : C → C → C) (z : C) (fuel : Nat) (p : PieceInfo C) :
    finishStack H z fuel [p] = .ok p.commitment := by
  cases fuel with
  | zero => rfl
  | succ fuel => rfl

theorem processPieces_nil (H : C → C → C) (z : C) (s : List (PieceInfo C)) :
    processPieces H z [] s = .ok s := rfl

theorem processPieces_cons (H : C → C → C) (z : C) (piece_info : PieceInfo C)
    (rest s s1 : List (PieceInfo C))
    (hpow : is_power_of_two (paddedOf piece_info.size) = true)
    (hg : growTop H z piece_info.size piece_info.size s = .ok s1) :
    processPieces H z (piece_info :: rest) s =
      processPieces H z rest (shift_reduce H piece_info s1) := by
  rw [processPieces, if_pos hpow, hg]

theorem compute_comm_d_eval (H : C → C → C) (z : C) (sector_size : Nat)
    (first : PieceInfo C) (rest s : List (PieceInfo C))
    (hlen : (first :: rest).length ≤ unpaddedOfSector sector_size / MINIMUM_PIECE_SIZE)
    (hsum : sumPaddedSizes (first :: rest) ≤ sector_size)
    (hpow : is_power_of_two (paddedOf first.size) = true)
    (hproc : processPieces H z rest [first] = .ok s) :
    compute_comm_d H z sector_size (first :: rest) =
      finishStack H z (finishFuel s) s := by
  rw [compute_comm_d, if_pos hlen, if_pos hsum, if_pos hpow, hproc]

/-- C4 (counterexample).  Instantiating the piece-hash oracle with
`H a b = a + b + 1` on `Nat` and the zero block with `0`: `zero_padding 127`
returns commitment `H(H(0,0), H(0,0)) = 3`, while the claim's single
compression `H(0,0)` is `1 ≠ 3`.  The source computes `h1 = piece_hash(0,0)`
with `hashed_size = 64` and then runs one loop iteration to reach
`hashed_size = 128 = padded(127)`, hashing a second time. -/
theorem zero_padding_127_cex :
    zero_padding (fun a b => a + b + 1) (0 : Nat) 127 = some ⟨3, 127⟩ ∧
    (fun a b => a + b + 1) (0 : Nat) 0 = 1 ∧ (3 : Nat) ≠ 1 := by
  refine ⟨by decide, by decide, by decide⟩

/-- C4 (amended).  `zero_padding 127` returns the piece of size 127 whose
commitment is `piece_hash(piece_hash(z,z), piece_hash(z,z))` — two
compressions, the Merkle root of the four 32-byte zero nodes making up the
128 padded bytes — not the single compression `piece_hash(z,z)`. -/
theorem zero_padding_127_eq (H : C → C → C) (z : C) :
    zero_padding H z 127 = some ⟨H (H z z) (H z z), 127⟩ := rfl

/-- C1 (confirmed).  Scenario A: in a sector of 512 padded bytes, the piece
lists `[a,b,c,d]` (four pieces of unpadded size 127), `[e,c,d]`,
`[e,f]` and `[g]` — where `e = piece_hash(a,b)` at size 254,
`f = piece_hash(c,d)` at size 254 and `g = piece_hash(e,f)` at size 508 —
all produce `comm_d = piece_hash(piece_hash(a,b), piece_hash(c,d))`. -/
theorem compute_comm_d_scenario_a (H : C → C → C) (z : C) (a b c d : C) :
    compute_comm_d H z 512 [⟨a, 127⟩, ⟨b, 127⟩, ⟨c, 127⟩, ⟨d, 127⟩] =
      .ok (H (H a b) (H c d)) ∧
    compute_comm_d H z 512 [⟨H a b, 254⟩, ⟨c, 127⟩, ⟨d, 127⟩] =
      .ok (H (H a b) (H c d)) ∧
    compute_comm_d H z 512 [⟨H a b, 254⟩, ⟨H c d, 254⟩] =
      .ok (H (H a b) (H c d)) ∧
    compute_comm_d H z 512 [⟨H (H a b) (H c d), 508⟩] =
      .ok (H (H a b) (H c d)) := by
  have e1 : shift_reduce H (⟨b, 127⟩ : PieceInfo C) [⟨a, 127⟩] = [⟨H a b, 254⟩] := by
    simp [shift_reduce, reduce, reduceAux, join_piece_infos]
  have e2 : shift_reduce H (⟨c, 127⟩ : PieceInfo C) [⟨H a b, 254⟩] =
      [⟨c, 127⟩, ⟨H a b, 254⟩] := by
    simp [shift_reduce, reduce, reduceAux]
  have e3 : shift_reduce H (⟨d, 127⟩ : PieceInfo C) [⟨c, 127⟩, ⟨H a b, 254⟩] =
      [⟨H (H a b) (H c d), 508⟩] := by
    simp [shift_reduce, reduce, reduceAux, join_piece_infos]
  have e4 : shift_reduce H (⟨H c d, 254⟩ : PieceInfo C) [⟨H a b, 254⟩] =
      [⟨H (H a b) (H c d), 508⟩] := by
    simp [shift_reduce, reduce, reduceAux, join_piece_infos]
  have hpw127 : is_power_of_two (paddedOf 127) = true := by decide
  have hpw254 : is_power_of_two (paddedOf 254) = true := by decide
  have hpw508 : is_power_of_two (paddedOf 508) = true := by decide
  have g127a : growTop H z 127 127 [(⟨a, 127⟩ : PieceInfo C)] = .ok [⟨a, 127⟩] :=
    growTop_exit H z 127 127 ⟨a, 127⟩ [] (by simp)
  have g127ab : growTop H z 127 127 [(⟨H a b, 254⟩ : PieceInfo C)] = .ok [⟨H a b, 254⟩] :=
    growTop_exit H z 127 127 ⟨H a b, 254⟩ [] (by simp)
  have g127c : growTop H z 127 127 [(⟨c, 127⟩ : PieceInfo C), ⟨H a b, 254⟩] =
      .ok [⟨c, 127⟩, ⟨H a b, 254⟩] :=
    growTop_exit H z 127 127 ⟨c, 127⟩ [⟨H a b, 254⟩] (by simp)
  have g254 : growTop H z 254 254 [(⟨H a b, 254⟩ : PieceInfo C)] = .ok [⟨H a b, 254⟩] :=
    growTop_exit H z 254 254 ⟨H a b, 254⟩ [] (by simp)
  have hlen4 : ([⟨a, 127⟩, ⟨b, 127⟩, ⟨c, 127⟩, ⟨d, 127⟩] :
      List (PieceInfo C)).length ≤ unpaddedOfSector 512 / MINIMUM_PIECE_SIZE := by
    norm_num [unpaddedOfSector, MINIMUM_PIECE_SIZE]
  have hlen3 : ([⟨H a b, 254⟩, ⟨c, 127⟩, ⟨d, 127⟩] :
      List (PieceInfo C)).length ≤ unpaddedOfSector 512 / MINIMUM_PIECE_SIZE := by
    norm_num [unpaddedOfSector, MINIMUM_PIECE_SIZE]
  have hlen2 : ([⟨H a b, 254⟩, ⟨H c d, 254⟩] :
      List (PieceInfo C)).length ≤ unpaddedOfSector 512 / MINIMUM_PIECE_SIZE := by
    norm_num [unpaddedOfSector, MINIMUM_PIECE_SIZE]
  have hlen1 : ([⟨H (H a b) (H c d), 508⟩] :
      List (PieceInfo C)).length ≤ unpaddedOfSector 512 / MINIMUM_PIECE_SIZE := by
    norm_num [unpaddedOfSector, MINIMUM_PIECE_SIZE]
  have hsum4 : sumPaddedSizes ([⟨a, 127⟩, ⟨b, 127⟩, ⟨c, 127⟩, ⟨d, 127⟩] :
      List (PieceInfo C)) ≤ 512 := by
    norm_num [sumPaddedSizes, paddedOf]
  have hsum3 : sumPaddedSizes ([⟨H a b, 254⟩, ⟨c, 127⟩, ⟨d, 127⟩] :
      List (PieceInfo C)) ≤ 512 := by
    norm_num [sumPaddedSizes, paddedOf]
  have hsum2 : sumPaddedSizes ([⟨H a b, 254⟩, ⟨H c d, 254⟩] :
      List (PieceInfo C)) ≤ 512 := by
    norm_num [sumPaddedSizes, paddedOf]
  have hsum1 : sumPaddedSizes ([⟨H (H a b) (H c d), 508⟩] : List (PieceInfo C)) ≤ 512 := by
    norm_num [sumPaddedSizes, paddedOf]
  refine ⟨?_, ?_, ?_, ?_⟩
  · have hp : processPieces H z [⟨b, 127⟩, ⟨c, 127⟩, ⟨d, 127⟩] [(⟨a, 127⟩ : PieceInfo C)] =
        .ok [⟨H (H a b) (H c d), 508⟩] := by
      rw [processPieces_cons H z ⟨b, 127⟩ [⟨c, 127⟩, ⟨d, 127⟩] [⟨a, 127⟩] [⟨a, 127⟩]
          hpw127 g127a, e1,
        processPieces_cons H z ⟨c, 127⟩ [⟨d, 127⟩] [⟨H a b, 254⟩] [⟨H a b, 254⟩]
          hpw127 g127ab, e2,
        processPieces_cons H z ⟨d, 127⟩ [] [⟨c, 127⟩, ⟨H a b, 254⟩] [⟨c, 127⟩, ⟨H a b, 254⟩]
          hpw127 g127c, e3,
        processPieces_nil]
    rw [compute_comm_d_eval H z 512 ⟨a, 127⟩ [⟨b, 127⟩, ⟨c, 127⟩, ⟨d, 127⟩]
        [⟨H (H a b) (H c d), 508⟩] hlen4 hsum4 hpw127 hp,
      finishStack_single]
  · have hp : processPieces H z [⟨c, 127⟩, ⟨d, 127⟩] [(⟨H a b, 254⟩ : PieceInfo C)] =
        .ok [⟨H (H a b) (H c d), 508⟩] := by
      rw [processPieces_cons H z ⟨c, 127⟩ [⟨d, 127⟩] [⟨H a b, 254⟩] [⟨H a b, 254⟩]
          hpw127 g127ab, e2,
        processPieces_cons H z ⟨d, 127⟩ [] [⟨c, 127⟩, ⟨H a b, 254⟩] [⟨c, 127⟩, ⟨H a b, 254⟩]
          hpw127 g127c, e3,
        processPieces_nil]
    rw [compute_comm_d_eval H z 512 ⟨H a b, 254⟩ [⟨c, 127⟩, ⟨d, 127⟩]
        [⟨H (H a b) (H c d), 508⟩] hlen3 hsum3 hpw254 hp,
      finishStack_single]
  · have hp : processPieces H z [⟨H c d, 254⟩] [(⟨H a b, 254⟩ : PieceInfo C)] =
        .ok [⟨H (H a b) (H c d), 508⟩] := by
      rw [processPieces_cons H z ⟨H c d, 254⟩ [] [⟨H a b, 254⟩] [⟨H a b, 254⟩]
          hpw254 g254, e4, processPieces_nil]
    rw [compute_comm_d_eval H z 512 ⟨H a b, 254⟩ [⟨H c d, 254⟩]
        [⟨H (H a b) (H c d), 508⟩] hlen2 hsum2 hpw254 hp,
      finishStack_single]
  · rw [compute_comm_d_eval H z 512 ⟨H (H a b) (H c d), 508⟩ []
        [⟨H (H a b) (H c d), 508⟩] hlen1 hsum1 hpw508
        (processPieces_nil H z [⟨H (H a b) (H c d), 508⟩]),
      finishStack_single]

/-- C3 (counterexample).  Sector of padded size 512 (a power of two larger
than 128) and the single piece `(commitment 1, size 127)`, with the hash
oracle `Nat.pair` and zero block `0`: the code returns the lone piece's
commitment `1` unchanged — the final loop `while stack.len() > 1` never runs
for a singleton stack, so no zero-piece levels are synthesized — whereas the
root of the fully zero-padded sector would be
`H(H(1, zp(127)), zp(254)) = 6 ≠ 1`. -/
theorem compute_comm_d_single_cex :
    compute_comm_d Nat.pair (0 : Nat) 512 [⟨1, 127⟩] = .ok 1 ∧
    zero_padding Nat.pair (0 : Nat) 127 = some ⟨0, 127⟩ ∧
    zero_padding Nat.pair (0 : Nat) 254 = some ⟨0, 254⟩ ∧
    Nat.pair (Nat.pair 1 0) 0 = 6 ∧ (1 : Nat) ≠ 6 := by
  refine ⟨by decide, by decide, by decide, by decide, by decide⟩

/-- C3 (amended).  For every sector whose padded size is a power of two of at
least 256, `compute_comm_d` on a single piece of unpadded size 127 returns
the lone piece's commitment: the zero-padding loop (step 3) only runs while
the stack holds more than one entry, so a singleton stack is returned as-is
and no zero-piece levels are synthesized. -/
theorem compute_comm_d_single_piece (H : C → C → C) (z : C) (c : C) (k : Nat) :
    compute_comm_d H z (2 ^ (k + 8)) [⟨c, 127⟩] = .ok c := by
  have hunp : unpaddedOfSector (2 ^ (k + 8)) = 127 * 2 ^ (k + 1) := by
    show 2 ^ (k + 8) * 127 / 128 = 127 * 2 ^ (k + 1)
    have : 2 ^ (k + 8) * 127 = 127 * 2 ^ (k + 1) * 128 := by ring
    rw [this, Nat.mul_div_cancel _ (by norm_num)]
  have hdiv : unpaddedOfSector (2 ^ (k + 8)) / MINIMUM_PIECE_SIZE = 2 ^ (k + 1) := by
    rw [hunp]
    exact Nat.mul_div_cancel_left _ (by norm_num)
  have hone : (1 : Nat) ≤ 2 ^ (k + 1) := Nat.one_le_two_pow
  have h128 : (2 : Nat) ^ 7 ≤ 2 ^ (k + 8) := Nat.pow_le_pow_right (by norm_num) (by omega)
  have h128b : (128 : Nat) ≤ 2 ^ (k + 8) := by
    calc (128 : Nat) = 2 ^ 7 := by norm_num
    _ ≤ 2 ^ (k + 8) := h128
  have hsum : sumPaddedSizes [(⟨c, 127⟩ : PieceInfo C)] ≤ 2 ^ (k + 8) := by
    norm_num [sumPaddedSizes, paddedOf]
    exact h128b
  have hpw127 : is_power_of_two (paddedOf 127) = true := by decide
  rw [compute_comm_d_eval H z (2 ^ (k + 8)) ⟨c, 127⟩ [] [⟨c, 127⟩]
      (by simpa [hdiv] using hone) hsum hpw127
      (processPieces_nil H z [⟨c, 127⟩]),
    finishStack_single]

/-- C6 (confirmed).  `verify_pieces` recomputes `comm_d` and compares:
whenever `compute_comm_d` succeeds, verifying against its own output yields
`Ok(true)`; verification yields `Ok(true)` exactly when `compute_comm_d`
succeeds with a byte-equal commitment; and on malformed input the error of
`compute_comm_d` is propagated rather than mapped to `false`. -/
theorem verify_pieces_spec [DecidableEq C] (H : C → C → C) (z : C)
    (sector_size : Nat) (piece_infos : List (PieceInfo C)) (claimed : C) :
    (∀ c, compute_comm_d H z sector_size piece_infos = .ok c →
      verify_pieces H z c piece_infos sector_size = .ok true) ∧
    (verify_pieces H z claimed piece_infos sector_size = .ok true ↔
      compute_comm_d H z sector_size piece_infos = .ok claimed) ∧
    (∀ e, compute_comm_d H z sector_size piece_infos = .error e →
      verify_pieces H z claimed piece_infos sector_size = .error e) := by
  refine ⟨?_, ?_, ?_⟩
  · intro c hc
    simp [verify_pieces, hc]
  · cases hc : compute_comm_d H z sector_size piece_infos with
    | error e => simp [verify_pieces, hc]
    | ok c =>
      simp only [verify_pieces, hc]
      constructor
      · intro h
        have h2 : decide (c = claimed) = true := Except.ok.inj h
        rw [of_decide_eq_true h2]
      · intro h
        have h2 : c = claimed := Except.ok.inj h
        rw [h2]
        simp
  · intro e he
    simp [verify_pieces, he]

theorem verify_pieces_spec_witness :
    verify_pieces Nat.pair (0 : Nat) 1 [⟨1, 127⟩] 512 = .ok true :=
  (verify_pieces_spec Nat.pair (0 : Nat) 512 [⟨1, 127⟩] 1).1 1 (by decide)

/-! ### The reduction-stack invariant -/

theorem paddedOf_valid {k : Nat} : paddedOf (127 * 2 ^ k) = 128 * 2 ^ k := by
  show 127 * 2 ^ k * 128 / 127 = 128 * 2 ^ k
  have h : 127 * 2 ^ k * 128 = 127 * (128 * 2 ^ k) := by ring
  rw [h, Nat.mul_div_cancel_left _ (by norm_num)]

theorem pow_check_valid {u : Nat} (h : ValidPieceSize u) :
    is_power_of_two (paddedOf u) = true := by
  obtain ⟨k, rfl⟩ := h
  rw [paddedOf_valid]
  exact is_power_of_two_iff.2 ⟨k + 7, by rw [pow_succ 2 (k + 6)]; ring⟩

theorem pow_check_of_mul127 {u : Nat} (hmul : 127 ∣ u)
    (hpow : is_power_of_two (paddedOf u) = true) : ValidPieceSize u := by
  obtain ⟨m, rfl⟩ := hmul
  have hpad : paddedOf (127 * m) = 128 * m := by
    show 127 * m * 128 / 127 = 128 * m
    have h : 127 * m * 128 = 127 * (128 * m) := by ring
    rw [h, Nat.mul_div_cancel_left _ (by norm_num)]
  rw [hpad] at hpow
  obtain ⟨j, hj⟩ := is_power_of_two_iff.1 hpow
  have hj7 : 7 ≤ j := by
    by_contra hlt
    push_neg at hlt
    have h1 : (2 : Nat) ^ j < 2 ^ 7 := Nat.pow_lt_pow_right (by norm_num) (by omega)
    have h2 : m ≠ 0 := by
      rintro rfl
      have := pow_pos (by norm_num : (0 : Nat) < 2) j
      omega
    have : 128 ≤ 128 * m := Nat.le_mul_of_pos_right _ (Nat.pos_of_ne_zero h2)
    omega
  refine ⟨j - 7, ?_⟩
  have hm : m = 2 ^ (j - 7) := by
    have hsplit : (2 : Nat) ^ j = 2 ^ 7 * 2 ^ (j - 7) := by
      rw [← pow_add]
      congr 1
      omega
    have : 128 * m = 2 ^ 7 * 2 ^ (j - 7) := by rw [← hsplit, hj]
    have h7 : (2 : Nat) ^ 7 = 128 := by norm_num
    rw [h7] at this
    omega
  rw [hm]

theorem valid_pos {u : Nat} (h : ValidPieceSize u) : 127 ≤ u := by
  obtain ⟨k, rfl⟩ := h
  have : (1 : Nat) ≤ 2 ^ k := Nat.one_le_two_pow
  nlinarith

theorem valid_lt_double {a b : Nat} (ha : ValidPieceSize a) (hb : ValidPieceSize b)
    (hab : a < b) : 2 * a ≤ b := by
  obtain ⟨i, rfl⟩ := ha
  obtain ⟨j, rfl⟩ := hb
  have hij : i < j := by
    by_contra hle
    push_neg at hle
    have : (2 : Nat) ^ j ≤ 2 ^ i := Nat.pow_le_pow_right (by norm_num) hle
    omega
  have : (2 : Nat) ^ (i + 1) ≤ 2 ^ j := Nat.pow_le_pow_right (by norm_num) (by omega)
  calc 2 * (127 * 2 ^ i) = 127 * 2 ^ (i + 1) := by ring
  _ ≤ 127 * 2 ^ j := Nat.mul_le_mul_left _ this

theorem valid_double {a : Nat} (ha : ValidPieceSize a) : ValidPieceSize (a + a) := by
  obtain ⟨k, rfl⟩ := ha
  exact ⟨k + 1, by rw [pow_succ]; ring⟩

theorem doubleUntilAux_pow (H : C → C → C) :
    ∀ (fuel i m : Nat) (c : C), i ≤ m → m - i ≤ fuel →
      (doubleUntilAux H fuel c (64 * 2 ^ i) (64 * 2 ^ m)).2 = 64 * 2 ^ m := by
  intro fuel
  induction fuel with
  | zero =>
    intro i m c him hfuel
    have : i = m := by omega
    subst this
    simp [doubleUntilAux]
  | succ fuel ih =>
    intro i m c him hfuel
    rcases Nat.eq_or_lt_of_le him with heq | hlt
    · subst heq
      simp [doubleUntilAux]
    · have hpow : (64 : Nat) * 2 ^ i < 64 * 2 ^ m := by
        have : (2 : Nat) ^ i < 2 ^ m := Nat.pow_lt_pow_right (by norm_num) hlt
        omega
      rw [doubleUntilAux, if_pos hpow]
      have hstep : (64 : Nat) * 2 ^ i * 2 = 64 * 2 ^ (i + 1) := by rw [pow_succ]; ring
      rw [hstep]
      exact ih (i + 1) m (H c c) (by omega) (by omega)

theorem zero_padding_of_valid (H : C → C → C) (z : C) {u : Nat}
    (h : ValidPieceSize u) : ∃ c, zero_padding H z u = some ⟨c, u⟩ := by
  obtain ⟨k, rfl⟩ := h
  have hpad : paddedOf (127 * 2 ^ k) = 64 * 2 ^ (k + 1) := by
    rw [paddedOf_valid, pow_succ]
    ring
  have hfuel : k + 1 ≤ 64 * 2 ^ (k + 1) := by
    have h1 : k + 1 ≤ 2 ^ (k + 1) := le_of_lt (Nat.lt_two_pow (k + 1))
    have h2 : (2 : Nat) ^ (k + 1) ≤ 64 * 2 ^ (k + 1) :=
      Nat.le_mul_of_pos_left _ (by norm_num)
    omega
  have h64 : (64 : Nat) = 64 * 2 ^ 0 := by norm_num
  refine ⟨(doubleUntilAux H (64 * 2 ^ (k + 1)) (H z z) 64 (64 * 2 ^ (k + 1))).1, ?_⟩
  rw [zero_padding, hpad]
  rw [if_pos]
  conv in doubleUntilAux H _ (H z z) 64 _ => rw [h64]
  exact doubleUntilAux_pow H (64 * 2 ^ (k + 1)) 0 (k + 1) (H z z) (by omega) (by omega)

theorem zero_padding_size {u : Nat} {zp : PieceInfo C} (H : C → C → C) (z : C)
    (h : zero_padding H z u = some zp) : zp.size = u := by
  rw [zero_padding] at h
  by_cases hc : (doubleUntilAux H (paddedOf u) (H z z) 64 (paddedOf u)).2 = paddedOf u
  · rw [if_pos hc] at h
    cases h
    rfl
  · rw [if_neg hc] at h
    cases h

theorem headSize_min {s : List (PieceInfo C)} (hval : StackValid s) (hne : s ≠ []) :
    127 ≤ headSize s := by
  cases s with
  | nil => exact absurd rfl hne
  | cons top rest => exact valid_pos (hval top (List.mem_cons_self top rest))

theorem bottomSize_cons_cons (a b : PieceInfo C) (t : List (PieceInfo C)) :
    bottomSize (a :: b :: t) = bottomSize (b :: t) := by
  simp [bottomSize, List.getLast?_cons_cons]

theorem bottomSize_congr {s1 s2 : List (PieceInfo C)} (h : s1.getLast? = s2.getLast?) :
    bottomSize s1 = bottomSize s2 := by
  simp [bottomSize, h]

/-- The cascade lemma: pushing an element no larger than the current top onto
a stack satisfying the strictly-decreasing-size invariant and then running
the `reduce` loop restores the invariant; the total size is preserved, the
new top is at least the pushed element (twice it when a merge fires), and the
bottom entry is untouched unless the whole stack collapses to one entry. -/
theorem cascade (H : C → C → C) : ∀ (fuel : Nat) (s : List (PieceInfo C)) (q : PieceInfo C),
    s.length ≤ fuel →
    StackSorted s → StackValid s → ValidPieceSize q.size →
    (s = [] ∨ q.size ≤ headSize s) →
    StackSorted (reduceAux H fuel (q :: s)) ∧
    StackValid (reduceAux H fuel (q :: s)) ∧
    reduceAux H fuel (q :: s) ≠ [] ∧
    q.size ≤ headSize (reduceAux H fuel (q :: s)) ∧
    sumSizes (reduceAux H fuel (q :: s)) = q.size + sumSizes s ∧
    (s ≠ [] → q.size = headSize s → 2 * q.size ≤ headSize (reduceAux H fuel (q :: s))) ∧
    ((reduceAux H fuel (q :: s)).length = 1 ∨
      (reduceAux H fuel (q :: s)).getLast? = s.getLast?) := by
  intro fuel
  induction fuel with
  | zero =>
    intro s q hlen hsort hval hq hle
    have hs : s = [] := by
      cases s with
      | nil => rfl
      | cons a t => simp at hlen
    subst hs
    simp only [reduceAux]
    refine ⟨trivial, ?_, by simp, le_refl _, by simp [sumSizes], ?_, Or.inl rfl⟩
    · intro p hp
      rcases List.mem_singleton.1 hp with rfl
      exact hq
    · intro hne _
      exact absurd rfl hne
  | succ fuel ih =>
    intro s q hlen hsort hval hq hle
    cases s with
    | nil =>
      simp only [reduceAux]
      refine ⟨trivial, ?_, by simp, le_refl _, by simp [sumSizes], ?_, Or.inl rfl⟩
      · intro p hp
        rcases List.mem_singleton.1 hp with rfl
        exact hq
      · intro hne _
        exact absurd rfl hne
    | cons b t =>
      have hqb : q.size ≤ b.size := by
        rcases hle with h | h
        · cases h
        · simpa [headSize] using h
      have hbval : ValidPieceSize b.size := hval b (List.mem_cons_self b t)
      have htval : StackValid t := fun p hp => hval p (List.mem_cons_of_mem b hp)
      have htsort : StackSorted t := by
        cases t with
        | nil => trivial
        | cons x xs => exact (hsort).2
      by_cases heq : q.size = b.size
      · have hjoin : (join_piece_infos H b q).size = b.size + q.size := rfl
        have hjval : ValidPieceSize (join_piece_infos H b q).size := by
          rw [hjoin, ← heq]
          have := valid_double hq
          simpa using this
        have hjle : t = [] ∨ (join_piece_infos H b q).size ≤ headSize t := by
          cases t with
          | nil => exact Or.inl rfl
          | cons x xs =>
            refine Or.inr ?_
            have hbx : b.size < x.size := (hsort).1
            have hxval : ValidPieceSize x.size := htval x (List.mem_cons_self x xs)
            have h2b : 2 * b.size ≤ x.size := valid_lt_double hbval hxval hbx
            simp only [headSize]
            omega
        have hstep : reduceAux H (fuel + 1) (q :: b :: t) =
            reduceAux H fuel (join_piece_infos H b q :: t) := by
          rw [reduceAux, if_pos heq]
        obtain ⟨ih1, ih2, ih3, ih4, ih5, _, ih7⟩ :=
          ih t (join_piece_infos H b q) (by simpa using hlen) htsort htval hjval hjle
        rw [hstep]
        refine ⟨ih1, ih2, ih3, ?_, ?_, ?_, ?_⟩
        · calc q.size ≤ (join_piece_infos H b q).size := by rw [hjoin]; omega
          _ ≤ headSize (reduceAux H fuel (join_piece_infos H b q :: t)) := ih4
        · rw [ih5, hjoin]
          simp only [sumSizes, List.map_cons, List.sum_cons]
          omega
        · intro _ _
          calc 2 * q.size = (join_piece_infos H b q).size := by rw [hjoin]; omega
          _ ≤ headSize (reduceAux H fuel (join_piece_infos H b q :: t)) := ih4
        · rcases ih7 with h1 | h1
          · exact Or.inl h1
          · cases t with
            | nil =>
              have h0 : reduceAux H fuel [join_piece_infos H b q] =
                  [join_piece_infos H b q] := by
                cases fuel <;> rfl
              exact Or.inl (by rw [h0]; rfl)
            | cons x xs =>
              refine Or.inr ?_
              rw [h1]
              simp [List.getLast?_cons_cons]
      · have hlt : q.size < b.size := lt_of_le_of_ne hqb heq
        have hstep : reduceAux H (fuel + 1) (q :: b :: t) = q :: b :: t := by
          rw [reduceAux, if_neg heq]
        rw [hstep]
        refine ⟨⟨hlt, hsort⟩, ?_, by simp, le_refl _, ?_, ?_, ?_⟩
        · intro p hp
          rcases List.mem_cons.1 hp with rfl | hp2
          · exact hq
          · exact hval p hp2
        · simp [sumSizes]
        · intro _ hhead
          simp only [headSize] at hhead
          omega
        · exact Or.inr (by simp [List.getLast?_cons_cons])

theorem shift_reduce_spec (H : C → C → C) (q : PieceInfo C) (s : List (PieceInfo C))
    (hsort : StackSorted s) (hval : StackValid s) (hq : ValidPieceSize q.size)
    (hle : s = [] ∨ q.size ≤ headSize s) :
    StackSorted (shift_reduce H q s) ∧ StackValid (shift_reduce H q s) ∧
    shift_reduce H q s ≠ [] ∧ q.size ≤ headSize (shift_reduce H q s) ∧
    sumSizes (shift_reduce H q s) = q.size + sumSizes s ∧
    (s ≠ [] → q.size = headSize s → 2 * q.size ≤ headSize (shift_reduce H q s)) ∧
    ((shift_reduce H q s).length = 1 ∨ (shift_reduce H q s).getLast? = s.getLast?) := by
  have h : shift_reduce H q s = reduceAux H (s.length + 1) (q :: s) := rfl
  rw [h]
  exact cascade H (s.length + 1) s q (by omega) hsort hval hq hle

theorem growTop_spec (H : C → C → C) (z : C) :
    ∀ (fuel psize : Nat) (s : List (PieceInfo C)),
      StackSorted s → StackValid s → s ≠ [] →
      psize ≤ headSize s * 2 ^ fuel →
      ∃ s1, growTop H z fuel psize s = .ok s1 ∧ StackSorted s1 ∧ StackValid s1 ∧
        s1 ≠ [] ∧ psize ≤ headSize s1 := by
  intro fuel
  induction fuel with
  | zero =>
    intro psize s hsort hval hne hbound
    cases s with
    | nil => exact absurd rfl hne
    | cons top rest =>
      simp only [headSize, pow_zero, Nat.mul_one] at hbound
      have hnl : ¬ top.size < psize := by omega
      exact ⟨top :: rest, growTop_exit H z 0 psize top rest hnl, hsort, hval, by simp,
        by simpa [headSize] using hbound⟩
  | succ fuel ih =>
    intro psize s hsort hval hne hbound
    cases s with
    | nil => exact absurd rfl hne
    | cons top rest =>
      by_cases hlt : top.size < psize
      · have htopval : ValidPieceSize top.size := hval top (List.mem_cons_self top rest)
        obtain ⟨c, hz⟩ := zero_padding_of_valid H z htopval
        have hzpsize : (⟨c, top.size⟩ : PieceInfo C).size = top.size := rfl
        have hsr := shift_reduce_spec H ⟨c, top.size⟩ (top :: rest) hsort hval
          (by simpa [hzpsize] using htopval)
          (Or.inr (by simp [headSize]))
        obtain ⟨h1, h2, h3, h4, h5, h6, h7⟩ := hsr
        have hdouble : 2 * top.size ≤ headSize (shift_reduce H ⟨c, top.size⟩ (top :: rest)) :=
          h6 (by simp) (by simp [headSize])
        have hbound2 : psize ≤ headSize (shift_reduce H ⟨c, top.size⟩ (top :: rest)) *
            2 ^ fuel := by
          have hb : psize ≤ top.size * 2 ^ (fuel + 1) := by
            simpa [headSize] using hbound
          calc psize ≤ top.size * 2 ^ (fuel + 1) := hb
          _ = 2 * top.size * 2 ^ fuel := by rw [pow_succ]; ring
          _ ≤ headSize (shift_reduce H ⟨c, top.size⟩ (top :: rest)) * 2 ^ fuel :=
            Nat.mul_le_mul_right _ hdouble
        obtain ⟨s1, hok, hs1, hv1, hn1, hp1⟩ :=
          ih psize (shift_reduce H ⟨c, top.size⟩ (top :: rest)) h1 h2 h3 hbound2
        refine ⟨s1, ?_, hs1, hv1, hn1, hp1⟩
        rw [growTop_iter H z fuel psize top rest ⟨c, top.size⟩ hlt hz]
        exact hok
      · exact ⟨top :: rest, growTop_exit H z (fuel + 1) psize top rest hlt, hsort, hval,
          by simp, by simpa [headSize] using Nat.not_lt.1 hlt⟩

theorem sum_head_le : ∀ s : List (PieceInfo C),
    StackSorted s → StackValid s → s ≠ [] →
    sumSizes s + headSize s ≤ 2 * bottomSize s := by
  intro s
  induction s with
  | nil => intro _ _ h; exact absurd rfl h
  | cons a t ih =>
    intro hsort hval _
    cases t with
    | nil =>
      simp [sumSizes, headSize, bottomSize]
      omega
    | cons b u =>
      have hab : a.size < b.size := hsort.1
      have h2a : 2 * a.size ≤ b.size :=
        valid_lt_double (hval a (List.mem_cons_self a (b :: u)))
          (hval b (List.mem_cons_of_mem a (List.mem_cons_self b u))) hab
      have ihr := ih hsort.2 (fun p hp => hval p (List.mem_cons_of_mem a hp)) (by simp)
      rw [bottomSize_cons_cons]
      simp only [sumSizes, List.map_cons, List.sum_cons, headSize] at ihr ⊢
      omega

theorem finishStack_ok (H : C → C → C) (z : C) :
    ∀ (fuel : Nat) (s : List (PieceInfo C)),
      StackSorted s → StackValid s → s ≠ [] →
      2 * bottomSize s ≤ fuel + sumSizes s →
      ∃ c, finishStack H z fuel s = .ok c := by
  intro fuel
  induction fuel with
  | zero =>
    intro s hsort hval hne hbound
    cases s with
    | nil => exact absurd rfl hne
    | cons top rest =>
      cases rest with
      | nil => exact ⟨top.commitment, rfl⟩
      | cons next rest2 =>
        have hsum := sum_head_le (top :: next :: rest2) hsort hval (by simp)
        have hmin : 127 ≤ headSize (top :: next :: rest2) := headSize_min hval (by simp)
        omega
  | succ fuel ih =>
    intro s hsort hval hne hbound
    cases s with
    | nil => exact absurd rfl hne
    | cons top rest =>
      cases rest with
      | nil => exact ⟨top.commitment, rfl⟩
      | cons next rest2 =>
        have htopval : ValidPieceSize top.size :=
          hval top (List.mem_cons_self top (next :: rest2))
        obtain ⟨c, hz⟩ := zero_padding_of_valid H z htopval
        obtain ⟨h1, h2, h3, h4, h5, h6, h7⟩ :=
          shift_reduce_spec H ⟨c, top.size⟩ (top :: next :: rest2) hsort hval
            (by simpa using htopval) (Or.inr (by simp [headSize]))
        have hstep : finishStack H z (fuel + 1) (top :: next :: rest2) =
            finishStack H z fuel (shift_reduce H ⟨c, top.size⟩ (top :: next :: rest2)) := by
          rw [finishStack, hz]
        rw [hstep]
        rcases h7 with hlen1 | hlast
        · obtain ⟨x, hx⟩ := List.length_eq_one.1 hlen1
          rw [hx]
          exact ⟨x.commitment, finishStack_single H z fuel x⟩
        · have hbot : bottomSize (shift_reduce H ⟨c, top.size⟩ (top :: next :: rest2)) =
              bottomSize (top :: next :: rest2) := bottomSize_congr hlast
          have htop127 : 127 ≤ top.size := valid_pos htopval
          apply ih _ h1 h2 h3
          rw [hbot, h5]
          have hzsize : (⟨c, top.size⟩ : PieceInfo C).size = top.size := rfl
          rw [hzsize]
          omega

theorem processPieces_cons_bad (H : C → C → C) (z : C) (piece_info : PieceInfo C)
    (rest s : List (PieceInfo C))
    (hpow : ¬ is_power_of_two (paddedOf piece_info.size) = true) :
    processPieces H z (piece_info :: rest) s = .error .nonPow2Piece := by
  rw [processPieces, if_neg hpow]

theorem processPieces_ok (H : C → C → C) (z : C) :
    ∀ (pieces s : List (PieceInfo C)),
      (∀ p ∈ pieces, ValidPieceSize p.size) →
      StackSorted s → StackValid s → s ≠ [] →
      ∃ s1, processPieces H z pieces s = .ok s1 ∧ StackSorted s1 ∧ StackValid s1 ∧
        s1 ≠ [] := by
  intro pieces
  induction pieces with
  | nil =>
    intro s _ hsort hval hne
    exact ⟨s, rfl, hsort, hval, hne⟩
  | cons p rest ih =>
    intro s hvalid hsort hval hne
    have hpval : ValidPieceSize p.size := hvalid p (List.mem_cons_self p rest)
    have hpow := pow_check_valid hpval
    have hbound : p.size ≤ headSize s * 2 ^ p.size := by
      have h1 : p.size < 2 ^ p.size := Nat.lt_two_pow p.size
      have h2 : 127 ≤ headSize s := headSize_min hval hne
      calc p.size ≤ 2 ^ p.size := le_of_lt h1
      _ ≤ headSize s * 2 ^ p.size := Nat.le_mul_of_pos_left _ (by omega)
    obtain ⟨s1, hok, hs1, hv1, hn1, hp1⟩ :=
      growTop_spec H z p.size p.size s hsort hval hne hbound
    obtain ⟨c1, c2, c3, -, -, -, -⟩ := shift_reduce_spec H p s1 hs1 hv1 hpval (Or.inr hp1)
    obtain ⟨s2, hok2, a1, a2, a3⟩ := ih (shift_reduce H p s1)
      (fun q hq => hvalid q (List.mem_cons_of_mem p hq)) c1 c2 c3
    refine ⟨s2, ?_, a1, a2, a3⟩
    rw [processPieces_cons H z p rest s s1 hpow hok]
    exact hok2

theorem processPieces_bad (H : C → C → C) (z : C) :
    ∀ (pieces s : List (PieceInfo C)),
      (∀ p ∈ pieces, 127 ∣ p.size) →
      ¬ (∀ p ∈ pieces, ValidPieceSize p.size) →
      StackSorted s → StackValid s → s ≠ [] →
      processPieces H z pieces s = .error .nonPow2Piece := by
  intro pieces
  induction pieces with
  | nil =>
    intro s _ hnall
    exact absurd (by intro p hp; cases hp) hnall
  | cons p rest ih =>
    intro s hmul hnall hsort hval hne
    by_cases hp : ValidPieceSize p.size
    · have hpow := pow_check_valid hp
      have hbound : p.size ≤ headSize s * 2 ^ p.size := by
        have h1 : p.size < 2 ^ p.size := Nat.lt_two_pow p.size
        have h2 : 127 ≤ headSize s := headSize_min hval hne
        calc p.size ≤ 2 ^ p.size := le_of_lt h1
        _ ≤ headSize s * 2 ^ p.size := Nat.le_mul_of_pos_left _ (by omega)
      obtain ⟨s1, hok, hs1, hv1, hn1, hp1⟩ :=
        growTop_spec H z p.size p.size s hsort hval hne hbound
      obtain ⟨c1, c2, c3, -, -, -, -⟩ := shift_reduce_spec H p s1 hs1 hv1 hp (Or.inr hp1)
      rw [processPieces_cons H z p rest s s1 hpow hok]
      refine ih (shift_reduce H p s1)
        (fun q hq => hmul q (List.mem_cons_of_mem p hq)) ?_ c1 c2 c3
      intro hall
      exact hnall (by
        intro q hq
        rcases List.mem_cons.1 hq with rfl | hq2
        · exact hp
        · exact hall q hq2)
    · have hpow : ¬ is_power_of_two (paddedOf p.size) = true := by
        intro hcontra
        exact hp (pow_check_of_mul127 (hmul p (List.mem_cons_self p rest)) hcontra)
      exact processPieces_cons_bad H z p rest s hpow

theorem compute_comm_d_eval_err (H : C → C → C) (z : C) (sector_size : Nat)
    (first : PieceInfo C) (rest : List (PieceInfo C)) (e : CommDErr)
    (hlen : (first :: rest).length ≤ unpaddedOfSector sector_size / MINIMUM_PIECE_SIZE)
    (hsum : sumPaddedSizes (first :: rest) ≤ sector_size)
    (hpow : is_power_of_two (paddedOf first.size) = true)
    (hproc : processPieces H z rest [first] = .error e) :
    compute_comm_d H z sector_size (first :: rest) = .error e := by
  rw [compute_comm_d, if_pos hlen, if_pos hsum, if_pos hpow, hproc]

theorem compute_comm_d_pow_err (H : C → C → C) (z : C) (sector_size : Nat)
    (first : PieceInfo C) (rest : List (PieceInfo C))
    (hlen : (first :: rest).length ≤ unpaddedOfSector sector_size / MINIMUM_PIECE_SIZE)
    (hsum : sumPaddedSizes (first :: rest) ≤ sector_size)
    (hpow : ¬ is_power_of_two (paddedOf first.size) = true) :
    compute_comm_d H z sector_size (first :: rest) = .error .nonPow2Piece := by
  rw [compute_comm_d, if_pos hlen, if_pos hsum, if_neg hpow]

theorem compute_comm_d_sum_err (H : C → C → C) (z : C) (sector_size : Nat)
    (first : PieceInfo C) (rest : List (PieceInfo C))
    (hlen : (first :: rest).length ≤ unpaddedOfSector sector_size / MINIMUM_PIECE_SIZE)
    (hsum : ¬ sumPaddedSizes (first :: rest) ≤ sector_size) :
    compute_comm_d H z sector_size (first :: rest) = .error .pieceOverflow := by
  rw [compute_comm_d, if_pos hlen, if_neg hsum]

theorem compute_comm_d_len_err (H : C → C → C) (z : C) (sector_size : Nat)
    (first : PieceInfo C) (rest : List (PieceInfo C))
    (hlen : ¬ (first :: rest).length ≤ unpaddedOfSector sector_size / MINIMUM_PIECE_SIZE) :
    compute_comm_d H z sector_size (first :: rest) = .error .tooManyPieces := by
  rw [compute_comm_d, if_neg hlen]

theorem compute_comm_d_full_ok (H : C → C → C) (z : C) (sector_size : Nat)
    (pieces : List (PieceInfo C))
    (hne : pieces ≠ [])
    (hlen : pieces.length ≤ unpaddedOfSector sector_size / MINIMUM_PIECE_SIZE)
    (hsum : sumPaddedSizes pieces ≤ sector_size)
    (hvalid : ∀ p ∈ pieces, ValidPieceSize p.size) :
    ∃ c, compute_comm_d H z sector_size pieces = .ok c := by
  cases pieces with
  | nil => exact absurd rfl hne
  | cons first rest =>
    have hfval : ValidPieceSize first.size := hvalid first (List.mem_cons_self first rest)
    have hpow := pow_check_valid hfval
    obtain ⟨s1, hok, hs1, hv1, hn1⟩ := processPieces_ok H z rest [first]
      (fun q hq => hvalid q (List.mem_cons_of_mem first hq)) trivial
      (by intro p hp; rcases List.mem_singleton.1 hp with rfl; exact hfval) (by simp)
    obtain ⟨c, hc⟩ := finishStack_ok H z (finishFuel s1) s1 hs1 hv1 hn1
      (by simp [finishFuel]; omega)
    refine ⟨c, ?_⟩
    rw [compute_comm_d_eval H z sector_size first rest s1 hlen hsum hpow hok]
    exact hc

/-- C2 (counterexample).  The piece list `[(commitment 7, size 1)]` in a
sector of padded size 256: the size 1 is not a power-of-two multiple of 127
(it is not even a multiple of 127), so the claim demands an error; but the
code's check is `is_power_of_two(PaddedBytesAmount::from(1))`, and the padded
size of 1 is `1·128/127 = 1 = 2^0`, a power of two, so `compute_comm_d`
accepts the piece and returns `Ok(7)`. -/
theorem compute_comm_d_error_cex :
    compute_comm_d Nat.pair (0 : Nat) 256 [⟨7, 1⟩] = .ok 7 ∧
    (1 : Nat) % 127 = 1 ∧ (1 : Nat) < 127 :=
  ⟨by decide, by decide, by decide⟩

/-- C2 (amended).  For piece lists in which every piece's size is a multiple
of 127 (so that the code's power-of-two test on the padded size agrees with
"power-of-two multiple of 127"), `compute_comm_d` returns an error exactly
when the pieces are empty, the piece count exceeds `unpadded(sector)/127`,
the summed padded sizes exceed the padded sector size, or some piece's size
is not a power-of-two multiple of 127; and whenever all four preconditions
hold it returns `Ok` with a commitment — no assertion or empty-stack pop
fires and both zero-padding loops terminate (no `assertFail` or `fuelOut`).
Without the multiple-of-127 restriction the claim is false
(`compute_comm_d_error_cex`): the code accepts any size whose padded size
`u·128/127` is a power of two, such as 1. -/
theorem compute_comm_d_error_iff (H : C → C → C) (z : C) (sector_size : Nat)
    (pieces : List (PieceInfo C)) (hmul : ∀ p ∈ pieces, 127 ∣ p.size) :
    ((∃ e, compute_comm_d H z sector_size pieces = .error e) ↔
      (pieces = [] ∨
        unpaddedOfSector sector_size / MINIMUM_PIECE_SIZE < pieces.length ∨
        sector_size < sumPaddedSizes pieces ∨
        ∃ p ∈ pieces, ¬ ValidPieceSize p.size)) ∧
    ((pieces ≠ [] ∧
        pieces.length ≤ unpaddedOfSector sector_size / MINIMUM_PIECE_SIZE ∧
        sumPaddedSizes pieces ≤ sector_size ∧
        ∀ p ∈ pieces, ValidPieceSize p.size) →
      ∃ c, compute_comm_d H z sector_size pieces = .ok c) := by
  cases pieces with
  | nil =>
    constructor
    · refine iff_of_true ⟨.missingPieces, rfl⟩ (Or.inl rfl)
    · rintro ⟨hne, -⟩
      exact absurd rfl hne
  | cons first rest =>
    by_cases hlen : (first :: rest).length ≤
        unpaddedOfSector sector_size / MINIMUM_PIECE_SIZE
    · by_cases hsum : sumPaddedSizes (first :: rest) ≤ sector_size
      · by_cases hvalid : ∀ p ∈ first :: rest, ValidPieceSize p.size
        · obtain ⟨c, hc⟩ := compute_comm_d_full_ok H z sector_size (first :: rest)
            (by simp) hlen hsum hvalid
          constructor
          · refine iff_of_false ?_ ?_
            · rintro ⟨e, he⟩
              rw [hc] at he
              cases he
            · rintro (h | h | h | ⟨p, hp, hnp⟩)
              · cases h
              · omega
              · omega
              · exact hnp (hvalid p hp)
          · intro _
            exact ⟨c, hc⟩
        · have herr : compute_comm_d H z sector_size (first :: rest) =
              .error .nonPow2Piece := by
            by_cases hfv : ValidPieceSize first.size
            · have hrest : ¬ ∀ p ∈ rest, ValidPieceSize p.size := by
                intro hall
                exact hvalid (by
                  intro q hq
                  rcases List.mem_cons.1 hq with rfl | hq2
                  · exact hfv
                  · exact hall q hq2)
              have hbad := processPieces_bad H z rest [first]
                (fun q hq => hmul q (List.mem_cons_of_mem first hq)) hrest trivial
                (by intro p hp; rcases List.mem_singleton.1 hp with rfl; exact hfv)
                (by simp)
              exact compute_comm_d_eval_err H z sector_size first rest .nonPow2Piece
                hlen hsum (pow_check_valid hfv) hbad
            · have hpow : ¬ is_power_of_two (paddedOf first.size) = true := by
                intro hcontra
                exact hfv (pow_check_of_mul127
                  (hmul first (List.mem_cons_self first rest)) hcontra)
              exact compute_comm_d_pow_err H z sector_size first rest hlen hsum hpow
          constructor
          · refine iff_of_true ⟨.nonPow2Piece, herr⟩ ?_
            push_neg at hvalid
            obtain ⟨p, hp, hnp⟩ := hvalid
            exact Or.inr (Or.inr (Or.inr ⟨p, hp, hnp⟩))
          · rintro ⟨-, -, -, hall⟩
            exact absurd hall hvalid
      · constructor
        · refine iff_of_true
            ⟨.pieceOverflow, compute_comm_d_sum_err H z sector_size first rest hlen hsum⟩
            (Or.inr (Or.inr (Or.inl (by omega))))
        · rintro ⟨-, -, hs, -⟩
          exact absurd hs hsum
    · constructor
      · refine iff_of_true
          ⟨.tooManyPieces, compute_comm_d_len_err H z sector_size first rest hlen⟩
          (Or.inr (Or.inl (by omega)))
      · rintro ⟨-, hl, -, -⟩
        exact absurd hl hlen

theorem compute_comm_d_error_iff_witness :
    (∃ e, compute_comm_d Nat.pair (0 : Nat) 512 [] = .error e) ∧
    (∃ c, compute_comm_d Nat.pair (0 : Nat) 512
      [⟨1, 127⟩, ⟨2, 127⟩] = .ok c) := by
  constructor
  · exact (compute_comm_d_error_iff Nat.pair 0 512 [] (by simp)).1.mpr (Or.inl rfl)
  · refine (compute_comm_d_error_iff Nat.pair 0 512 [⟨1, 127⟩, ⟨2, 127⟩] ?_).2
      ⟨by simp, by decide, by decide, ?_⟩
    · intro p hp
      rcases List.mem_cons.1 hp with rfl | hp2
      · exact ⟨1, by norm_num⟩
      · rcases List.mem_singleton.1 hp2 with rfl
        exact ⟨1, by norm_num⟩
    · intro p hp
      rcases List.mem_cons.1 hp with rfl | hp2
      · exact ⟨0, by norm_num⟩
      · rcases List.mem_singleton.1 hp2 with rfl
        exact ⟨0, by norm_num⟩

/-! ### The stack invariant along the whole computation (trace lemmas) -/

theorem growTopT_exit (H : C → C → C) (z : C) (fuel psize : Nat) (top : PieceInfo C)
    (rest : List (PieceInfo C)) (h : ¬ top.size < psize) :
    growTopT H z fuel psize (top :: rest) = .ok ([], top :: rest) := by
  cases fuel with
  | zero => rw [growTopT, if_neg h]
  | succ fuel => rw [growTopT, if_neg h]

theorem growTopT_iter (H : C → C → C) (z : C) (fuel psize : Nat) (top : PieceInfo C)
    (rest : List (PieceInfo C)) (zp : PieceInfo C) (h : top.size < psize)
    (hz : zero_padding H z top.size = some zp) :
    growTopT H z (fuel + 1) psize (top :: rest) =
      match growTopT H z fuel psize (shift_reduce H zp (top :: rest)) with
      | .error e => .error e
      | .ok (tr, s1) => .ok (shift_reduce H zp (top :: rest) :: tr, s1) := by
  rw [growTopT, if_pos h, hz]

theorem processPiecesT_cons (H : C → C → C) (z : C) (piece_info : PieceInfo C)
    (rest s : List (PieceInfo C)) (tr1 : List (List (PieceInfo C)))
    (s1 : List (PieceInfo C))
    (hpow : is_power_of_two (paddedOf piece_info.size) = true)
    (hg : growTopT H z piece_info.size piece_info.size s = .ok (tr1, s1)) :
    processPiecesT H z (piece_info :: rest) s =
      match processPiecesT H z rest (shift_reduce H piece_info s1) with
      | .error e => .error e
      | .ok (tr2, s2) => .ok (tr1 ++ shift_reduce H piece_info s1 :: tr2, s2) := by
  rw [processPiecesT, if_pos hpow, hg]

theorem finishStackT_iter (H : C → C → C) (z : C) (fuel : Nat)
    (top next : PieceInfo C) (rest : List (PieceInfo C)) (zp : PieceInfo C)
    (hz : zero_padding H z top.size = some zp) :
    finishStackT H z (fuel + 1) (top :: next :: rest) =
      match finishStackT H z fuel (shift_reduce H zp (top :: next :: rest)) with
      | .error e => .error e
      | .ok (tr, c) => .ok (shift_reduce H zp (top :: next :: rest) :: tr, c) := by
  rw [finishStackT, hz]

theorem growTopT_spec (H : C → C → C) (z : C) :
    ∀ (fuel psize : Nat) (s : List (PieceInfo C)),
      StackSorted s → StackValid s → s ≠ [] →
      psize ≤ headSize s * 2 ^ fuel →
      ∃ tr s1, growTopT H z fuel psize s = .ok (tr, s1) ∧
        growTop H z fuel psize s = .ok s1 ∧
        StackSorted s1 ∧ StackValid s1 ∧ s1 ≠ [] ∧ psize ≤ headSize s1 ∧
        ∀ st ∈ tr, StackSorted st := by
  intro fuel
  induction fuel with
  | zero =>
    intro psize s hsort hval hne hbound
    cases s with
    | nil => exact absurd rfl hne
    | cons top rest =>
      simp only [headSize, pow_zero, Nat.mul_one] at hbound
      have hnl : ¬ top.size < psize := by omega
      exact ⟨[], top :: rest, growTopT_exit H z 0 psize top rest hnl,
        growTop_exit H z 0 psize top rest hnl, hsort, hval, by simp,
        by simpa [headSize] using hbound, by simp⟩
  | succ fuel ih =>
    intro psize s hsort hval hne hbound
    cases s with
    | nil => exact absurd rfl hne
    | cons top rest =>
      by_cases hlt : top.size < psize
      · have htopval : ValidPieceSize top.size := hval top (List.mem_cons_self top rest)
        obtain ⟨c, hz⟩ := zero_padding_of_valid H z htopval
        obtain ⟨h1, h2, h3, h4, h5, h6, h7⟩ :=
          shift_reduce_spec H ⟨c, top.size⟩ (top :: rest) hsort hval
            (by simpa using htopval) (Or.inr (by simp [headSize]))
        have hdouble : 2 * top.size ≤
            headSize (shift_reduce H ⟨c, top.size⟩ (top :: rest)) :=
          h6 (by simp) (by simp [headSize])
        have hbound2 : psize ≤ headSize (shift_reduce H ⟨c, top.size⟩ (top :: rest)) *
            2 ^ fuel := by
          have hb : psize ≤ top.size * 2 ^ (fuel + 1) := by
            simpa [headSize] using hbound
          calc psize ≤ top.size * 2 ^ (fuel + 1) := hb
          _ = 2 * top.size * 2 ^ fuel := by rw [pow_succ]; ring
          _ ≤ headSize (shift_reduce H ⟨c, top.size⟩ (top :: rest)) * 2 ^ fuel :=
            Nat.mul_le_mul_right _ hdouble
        obtain ⟨tr, s1, hTok, hok, hs1, hv1, hn1, hp1, htr⟩ :=
          ih psize (shift_reduce H ⟨c, top.size⟩ (top :: rest)) h1 h2 h3 hbound2
        refine ⟨shift_reduce H ⟨c, top.size⟩ (top :: rest) :: tr, s1, ?_, ?_,
          hs1, hv1, hn1, hp1, ?_⟩
        · rw [growTopT_iter H z fuel psize top rest ⟨c, top.size⟩ hlt hz, hTok]
        · rw [growTop_iter H z fuel psize top rest ⟨c, top.size⟩ hlt hz]
          exact hok
        · intro st hst
          rcases List.mem_cons.1 hst with rfl | hst2
          · exact h1
          · exact htr st hst2
      · exact ⟨[], top :: rest, growTopT_exit H z (fuel + 1) psize top rest hlt,
          growTop_exit H z (fuel + 1) psize top rest hlt, hsort, hval, by simp,
          by simpa [headSize] using Nat.not_lt.1 hlt, by simp⟩

theorem processPiecesT_spec (H : C → C → C) (z : C) :
    ∀ (pieces s : List (PieceInfo C)),
      (∀ p ∈ pieces, ValidPieceSize p.size) →
      StackSorted s → StackValid s → s ≠ [] →
      ∃ tr s1, processPiecesT H z pieces s = .ok (tr, s1) ∧
        processPieces H z pieces s = .ok s1 ∧
        StackSorted s1 ∧ StackValid s1 ∧ s1 ≠ [] ∧
        ∀ st ∈ tr, StackSorted st := by
  intro pieces
  induction pieces with
  | nil =>
    intro s _ hsort hval hne
    exact ⟨[], s, rfl, rfl, hsort, hval, hne, by simp⟩
  | cons p rest ih =>
    intro s hvalid hsort hval hne
    have hpval : ValidPieceSize p.size := hvalid p (List.mem_cons_self p rest)
    have hpow := pow_check_valid hpval
    have hbound : p.size ≤ headSize s * 2 ^ p.size := by
      have h1 : p.size < 2 ^ p.size := Nat.lt_two_pow p.size
      have h2 : 127 ≤ headSize s := headSize_min hval hne
      calc p.size ≤ 2 ^ p.size := le_of_lt h1
      _ ≤ headSize s * 2 ^ p.size := Nat.le_mul_of_pos_left _ (by omega)
    obtain ⟨tr1, s1, hT1, hok1, hs1, hv1, hn1, hp1, htr1⟩ :=
      growTopT_spec H z p.size p.size s hsort hval hne hbound
    obtain ⟨c1, c2, c3, -, -, -, -⟩ := shift_reduce_spec H p s1 hs1 hv1 hpval (Or.inr hp1)
    obtain ⟨tr2, s2, hT2, hok2, a1, a2, a3, htr2⟩ := ih (shift_reduce H p s1)
      (fun q hq => hvalid q (List.mem_cons_of_mem p hq)) c1 c2 c3
    refine ⟨tr1 ++ shift_reduce H p s1 :: tr2, s2, ?_, ?_, a1, a2, a3, ?_⟩
    · rw [processPiecesT_cons H z p rest s tr1 s1 hpow hT1, hT2]
    · rw [processPieces_cons H z p rest s s1 hpow hok1]
      exact hok2
    · intro st hst
      rcases List.mem_append.1 hst with hst1 | hst2
      · exact htr1 st hst1
      · rcases List.mem_cons.1 hst2 with rfl | hst3
        · exact c1
        · exact htr2 st hst3

theorem finishStackT_spec (H : C → C → C) (z : C) :
    ∀ (fuel : Nat) (s : List (PieceInfo C)),
      StackSorted s → StackValid s → s ≠ [] →
      2 * bottomSize s ≤ fuel + sumSizes s →
      ∃ tr c, finishStackT H z fuel s = .ok (tr, c) ∧
        finishStack H z fuel s = .ok c ∧
        ∀ st ∈ tr, StackSorted st := by
  intro fuel
  induction fuel with
  | zero =>
    intro s hsort hval hne hbound
    cases s with
    | nil => exact absurd rfl hne
    | cons top rest =>
      cases rest with
      | nil => exact ⟨[], top.commitment, rfl, rfl, by simp⟩
      | cons next rest2 =>
        have hsum := sum_head_le (top :: next :: rest2) hsort hval (by simp)
        have hmin : 127 ≤ headSize (top :: next :: rest2) := headSize_min hval (by simp)
        omega
  | succ fuel ih =>
    intro s hsort hval hne hbound
    cases s with
    | nil => exact absurd rfl hne
    | cons top rest =>
      cases rest with
      | nil => exact ⟨[], top.commitment, rfl, rfl, by simp⟩
      | cons next rest2 =>
        have htopval : ValidPieceSize top.size :=
          hval top (List.mem_cons_self top (next :: rest2))
        obtain ⟨c, hz⟩ := zero_padding_of_valid H z htopval
        obtain ⟨h1, h2, h3, h4, h5, h6, h7⟩ :=
          shift_reduce_spec H ⟨c, top.size⟩ (top :: next :: rest2) hsort hval
            (by simpa using htopval) (Or.inr (by simp [headSize]))
        have hplain : finishStack H z (fuel + 1) (top :: next :: rest2) =
            finishStack H z fuel (shift_reduce H ⟨c, top.size⟩ (top :: next :: rest2)) := by
          rw [finishStack, hz]
        rcases h7 with hlen1 | hlast
        · obtain ⟨x, hx⟩ := List.length_eq_one.1 hlen1
          refine ⟨[shift_reduce H ⟨c, top.size⟩ (top :: next :: rest2)], x.commitment,
            ?_, ?_, ?_⟩
          · have hsingle : finishStackT H z fuel [x] = .ok ([], x.commitment) := by
              cases fuel <;> rfl
            rw [finishStackT_iter H z fuel top next rest2 ⟨c, top.size⟩ hz, hx, hsingle]
          · rw [hplain, hx]
            exact finishStack_single H z fuel x
          · intro st hst
            rcases List.mem_singleton.1 hst with rfl
            exact h1
        · have hbot : bottomSize (shift_reduce H ⟨c, top.size⟩ (top :: next :: rest2)) =
              bottomSize (top :: next :: rest2) := bottomSize_congr hlast
          have htop127 : 127 ≤ top.size := valid_pos htopval
          have hbound2 : 2 * bottomSize (shift_reduce H ⟨c, top.size⟩
              (top :: next :: rest2)) ≤ fuel +
              sumSizes (shift_reduce H ⟨c, top.size⟩ (top :: next :: rest2)) := by
            rw [hbot, h5]
            have hzsize : (⟨c, top.size⟩ : PieceInfo C).size = top.size := rfl
            rw [hzsize]
            omega
          obtain ⟨tr, c0, hT, hF, htr⟩ := ih
            (shift_reduce H ⟨c, top.size⟩ (top :: next :: rest2)) h1 h2 h3 hbound2
          refine ⟨shift_reduce H ⟨c, top.size⟩ (top :: next :: rest2) :: tr, c0,
            ?_, ?_, ?_⟩
          · rw [finishStackT_iter H z fuel top next rest2 ⟨c, top.size⟩ hz, hT]
          · rw [hplain]
            exact hF
          · intro st hst
            rcases List.mem_cons.1 hst with rfl | hst2
            · exact h1
            · exact htr st hst2

theorem computeCommDT_len_err (H : C → C → C) (z : C) (sector_size : Nat)
    (first : PieceInfo C) (rest : List (PieceInfo C))
    (hlen : ¬ (first :: rest).length ≤ unpaddedOfSector sector_size / MINIMUM_PIECE_SIZE) :
    computeCommDT H z sector_size (first :: rest) = .error .tooManyPieces := by
  rw [computeCommDT, if_neg hlen]

theorem computeCommDT_sum_err (H : C → C → C) (z : C) (sector_size : Nat)
    (first : PieceInfo C) (rest : List (PieceInfo C))
    (hlen : (first :: rest).length ≤ unpaddedOfSector sector_size / MINIMUM_PIECE_SIZE)
    (hsum : ¬ sumPaddedSizes (first :: rest) ≤ sector_size) :
    computeCommDT H z sector_size (first :: rest) = .error .pieceOverflow := by
  rw [computeCommDT, if_pos hlen, if_neg hsum]

theorem computeCommDT_eval (H : C → C → C) (z : C) (sector_size : Nat)
    (first : PieceInfo C) (rest : List (PieceInfo C))
    (tr1 : List (List (PieceInfo C))) (s1 : List (PieceInfo C))
    (tr2 : List (List (PieceInfo C))) (c : C)
    (hlen : (first :: rest).length ≤ unpaddedOfSector sector_size / MINIMUM_PIECE_SIZE)
    (hsum : sumPaddedSizes (first :: rest) ≤ sector_size)
    (hpow : is_power_of_two (paddedOf first.size) = true)
    (hprocT : processPiecesT H z rest [first] = .ok (tr1, s1))
    (hfinT : finishStackT H z (finishFuel s1) s1 = .ok (tr2, c)) :
    computeCommDT H z sector_size (first :: rest) =
      .ok ([first] :: (tr1 ++ tr2), c) := by
  rw [computeCommDT, if_pos hlen, if_pos hsum, if_pos hpow, hprocT]
  simp only [hfinT]

/-- C7 (confirmed).  During a `compute_comm_d` run on a piece list whose
sizes are all power-of-two multiples of 127, every stack at rest between
stack operations — recorded by the instrumented `computeCommDT`: the
singleton after the initial shift and the stack after every `shift_reduce`
(each of which ends with `reduce()` returning) — satisfies the
strictly-decreasing-size invariant (`StackSorted`: sizes strictly increase
from the top of the stack, the list head, towards the bottom).  The
instrumented run returns exactly the commitment of `compute_comm_d`. -/
theorem stack_invariant_sorted (H : C → C → C) (z : C) (sector_size : Nat)
    (pieces : List (PieceInfo C)) (hvalid : ∀ p ∈ pieces, ValidPieceSize p.size) :
    (∀ tr c, computeCommDT H z sector_size pieces = .ok (tr, c) →
      compute_comm_d H z sector_size pieces = .ok c ∧ ∀ s ∈ tr, StackSorted s) ∧
    (∀ c, compute_comm_d H z sector_size pieces = .ok c →
      ∃ tr, computeCommDT H z sector_size pieces = .ok (tr, c) ∧
        ∀ s ∈ tr, StackSorted s) := by
  cases pieces with
  | nil =>
    constructor
    · intro tr c h
      cases h
    · intro c h
      cases h
  | cons first rest =>
    by_cases hlen : (first :: rest).length ≤
        unpaddedOfSector sector_size / MINIMUM_PIECE_SIZE
    · by_cases hsum : sumPaddedSizes (first :: rest) ≤ sector_size
      · have hfval : ValidPieceSize first.size :=
          hvalid first (List.mem_cons_self first rest)
        have hpow := pow_check_valid hfval
        obtain ⟨tr1, s1, hT1, hP1, hs1, hv1, hn1, htr1⟩ :=
          processPiecesT_spec H z rest [first]
            (fun q hq => hvalid q (List.mem_cons_of_mem first hq)) trivial
            (by intro p hp; rcases List.mem_singleton.1 hp with rfl; exact hfval)
            (by simp)
        obtain ⟨tr2, c0, hT2, hF2, htr2⟩ :=
          finishStackT_spec H z (finishFuel s1) s1 hs1 hv1 hn1
            (by simp [finishFuel]; omega)
        have hTfull := computeCommDT_eval H z sector_size first rest tr1 s1 tr2 c0
          hlen hsum hpow hT1 hT2
        have hfull : compute_comm_d H z sector_size (first :: rest) = .ok c0 := by
          rw [compute_comm_d_eval H z sector_size first rest s1 hlen hsum hpow hP1]
          exact hF2
        have hsorted : ∀ s ∈ [first] :: (tr1 ++ tr2), StackSorted s := by
          intro s hs
          rcases List.mem_cons.1 hs with rfl | hs2
          · trivial
          · rcases List.mem_append.1 hs2 with hs3 | hs3
            · exact htr1 s hs3
            · exact htr2 s hs3
        constructor
        · intro tr c h
          rw [hTfull] at h
          cases h
          exact ⟨hfull, hsorted⟩
        · intro c h
          rw [hfull] at h
          cases h
          exact ⟨[first] :: (tr1 ++ tr2), hTfull, hsorted⟩
      · have h1 := computeCommDT_sum_err H z sector_size first rest hlen hsum
        have h2 := compute_comm_d_sum_err H z sector_size first rest hlen hsum
        constructor
        · intro tr c h
          rw [h1] at h
          cases h
        · intro c h
          rw [h2] at h
          cases h
    · have h1 := computeCommDT_len_err H z sector_size first rest hlen
      have h2 := compute_comm_d_len_err H z sector_size first rest hlen
      constructor
      · intro tr c h
        rw [h1] at h
        cases h
      · intro c h
        rw [h2] at h
        cases h

theorem stack_invariant_sorted_witness :
    ∃ tr, computeCommDT Nat.pair (0 : Nat) 512 [⟨1, 127⟩, ⟨2, 127⟩] =
      .ok (tr, Nat.pair 1 2) ∧ ∀ s ∈ tr, StackSorted s := by
  refine (stack_invariant_sorted Nat.pair 0 512 [⟨1, 127⟩, ⟨2, 127⟩] ?_).2
    (Nat.pair 1 2) (by decide)
  intro p hp
  rcases List.mem_cons.1 hp with rfl | hp2
  · exact ⟨0, by norm_num⟩
  · rcases List.mem_singleton.1 hp2 with rfl
    exact ⟨0, by norm_num⟩

end FilProofs
